import Mathlib

set_option maxRecDepth 10000

/-!
Verification of the byte-level BPE tokenizer in `src/encoder.py` (class
`Encoder` and its helpers `bytes_to_unicode`, `get_pairs`).

Modelling conventions:
* Python strings are `List Nat` of Unicode code points; bytes are `Nat < 256`.
* Python dicts built from a pair list are modelled by `dictLookup`, which
  returns the value of the *last* matching key (Python's later-wins
  semantics for duplicate keys, and insertion-order iteration elsewhere).
* Fallible code (KeyError, IndexError) is modelled with `Option`.
* Unbounded `while` loops are modelled with an explicit fuel argument that
  is instantiated with a provably sufficient bound, so every definition is
  kernel-computable; lemmas show the fuel never runs out.
* The pre-tokenization regex is modelled by a faithful matcher
  parameterized over the Unicode character classes `\p{L}`, `\p{N}`, `\s`
  (the class tables live in the `regex` package, outside this repository).
-/

/-- A symbol: a string over surrogate code points (variable length). -/
abbrev Symb := List Nat

/-- Association-list lookup, first match wins. -/
def alookup {α β : Type} [DecidableEq α] (k : α) : List (α × β) → Option β
  | [] => none
  | (a, b) :: t => if a = k then some b else alookup k t

/-- Python-dict lookup for a dict built from a pair list: the *last*
occurrence of a key wins, as in `dict(pairs)`. -/
def dictLookup {α β : Type} [DecidableEq α] (l : List (α × β)) (k : α) : Option β :=
  alookup k l.reverse

theorem alookup_mem {α β : Type} [DecidableEq α] {k : α} {v : β} :
    ∀ {l : List (α × β)}, alookup k l = some v → (k, v) ∈ l := by
  intro l
  induction l with
  | nil => intro h; simp [alookup] at h
  | cons p t ih =>
    intro h
    obtain ⟨a, b⟩ := p
    by_cases hak : a = k
    · subst hak
      simp [alookup] at h
      subst h
      exact List.mem_cons_self _ _
    · simp [alookup, hak] at h
      exact List.mem_cons_of_mem _ (ih h)

theorem alookup_isSome_of_mem {α β : Type} [DecidableEq α] {k : α} {v : β} :
    ∀ {l : List (α × β)}, (k, v) ∈ l → (alookup k l).isSome := by
  intro l
  induction l with
  | nil => intro h; simp at h
  | cons p t ih =>
    intro h
    obtain ⟨a, b⟩ := p
    by_cases hak : a = k
    · subst hak; simp [alookup]
    · rcases List.mem_cons.mp h with h1 | h2
      · exact absurd (congrArg Prod.fst h1).symm hak
      · simpa [alookup, hak] using ih h2

theorem dictLookup_mem {α β : Type} [DecidableEq α] {l : List (α × β)} {k : α} {v : β}
    (h : dictLookup l k = some v) : (k, v) ∈ l :=
  List.mem_reverse.mp (alookup_mem h)

theorem dictLookup_isSome_of_mem {α β : Type} [DecidableEq α] {l : List (α × β)} {k : α} {v : β}
    (h : (k, v) ∈ l) : (dictLookup l k).isSome :=
  alookup_isSome_of_mem (List.mem_reverse.mpr h)

/-- Option-valued map over a list: `none` as soon as any element fails
(models a Python comprehension that may raise). -/
def omap {α β : Type} (f : α → Option β) : List α → Option (List β)
  | [] => some []
  | a :: t =>
    match f a, omap f t with
    | some b, some bs => some (b :: bs)
    | _, _ => none

theorem omap_append {α β : Type} (f : α → Option β) (l1 l2 : List α) :
    omap f (l1 ++ l2) =
      match omap f l1, omap f l2 with
      | some b1, some b2 => some (b1 ++ b2)
      | _, _ => none := by
  induction l1 with
  | nil =>
    simp only [List.nil_append, omap]
    cases omap f l2 <;> rfl
  | cons a t ih =>
    simp only [List.cons_append, omap, List.append_eq]
    rw [ih]
    cases f a <;> cases omap f t <;> cases omap f l2 <;> rfl

theorem omap_eq_none_of_mem {α β : Type} {f : α → Option β} {a : α} :
    ∀ {l : List α}, a ∈ l → f a = none → omap f l = none := by
  intro l
  induction l with
  | nil => intro h; simp at h
  | cons x t ih =>
    intro hmem hfa
    rcases List.mem_cons.mp hmem with h1 | h2
    · subst h1; simp [omap, hfa]
    · simp only [omap, ih h2 hfa]
      cases f x <;> rfl

theorem omap_isSome_of_forall {α β : Type} {f : α → Option β} :
    ∀ {l : List α}, (∀ a ∈ l, (f a).isSome) → ∃ bs, omap f l = some bs := by
  intro l
  induction l with
  | nil => intro _; exact ⟨[], rfl⟩
  | cons x t ih =>
    intro h
    obtain ⟨b, hb⟩ := Option.isSome_iff_exists.mp (h x (List.mem_cons_self _ _))
    obtain ⟨bs, hbs⟩ := ih (fun a ha => h a (List.mem_cons_of_mem _ ha))
    exact ⟨b :: bs, by simp [omap, hb, hbs]⟩

/-! ## `bytes_to_unicode` (encoder.py lines 8–28) -/

/-- `bs` before the loop: printable bytes `!..~`, `¡..¬`, `®..ÿ`. -/
def bs0 : List Nat := List.range' 33 94 ++ List.range' 161 12 ++ List.range' 174 82

/-- The loop `for b in range(2**8): if b not in bs: ...` building the
parallel lists `bs`, `cs` and the counter `n`. -/
def b2uAcc : List Nat × List Nat × Nat :=
  (List.range 256).foldl
    (fun acc b =>
      if b ∈ acc.1 then acc
      else (acc.1 ++ [b], acc.2.1 ++ [256 + acc.2.2], acc.2.2 + 1))
    (bs0, bs0, 0)

/-- `dict(zip(bs, cs))` as a pair list (byte, surrogate code point). -/
def byteEncPairs : List (Nat × Nat) := b2uAcc.1.zip b2uAcc.2.1

/-- `self.byte_encoder[b]`; total wrapper (every byte < 256 is a key). -/
def byte_encoder (b : Nat) : Nat := (dictLookup byteEncPairs b).getD 0

/-- `self.byte_decoder = {v:k for k, v in self.byte_encoder.items()}`. -/
def byteDecPairs : List (Nat × Nat) := byteEncPairs.map Prod.swap

/-- `self.byte_decoder[c]`, fallible (KeyError on unmapped characters). -/
def byte_decoder (c : Nat) : Option Nat := dictLookup byteDecPairs c

/-- The value of `byteEncPairs`, as a literal table (checked by `decide`
below); used to keep later kernel evaluations cheap. -/
def byteEncPairsLit : List (Nat × Nat) := [
  (33, 33), (34, 34), (35, 35), (36, 36), (37, 37), (38, 38), (39, 39), (40, 40), (41, 41),
  (42, 42), (43, 43), (44, 44), (45, 45), (46, 46), (47, 47), (48, 48), (49, 49), (50, 50),
  (51, 51), (52, 52), (53, 53), (54, 54), (55, 55), (56, 56), (57, 57), (58, 58), (59, 59),
  (60, 60), (61, 61), (62, 62), (63, 63), (64, 64), (65, 65), (66, 66), (67, 67), (68, 68),
  (69, 69), (70, 70), (71, 71), (72, 72), (73, 73), (74, 74), (75, 75), (76, 76), (77, 77),
  (78, 78), (79, 79), (80, 80), (81, 81), (82, 82), (83, 83), (84, 84), (85, 85), (86, 86),
  (87, 87), (88, 88), (89, 89), (90, 90), (91, 91), (92, 92), (93, 93), (94, 94), (95, 95),
  (96, 96), (97, 97), (98, 98), (99, 99), (100, 100), (101, 101), (102, 102), (103, 103),
  (104, 104), (105, 105), (106, 106), (107, 107), (108, 108), (109, 109), (110, 110), (111,
  111), (112, 112), (113, 113), (114, 114), (115, 115), (116, 116), (117, 117), (118, 118),
  (119, 119), (120, 120), (121, 121), (122, 122), (123, 123), (124, 124), (125, 125), (126,
  126), (161, 161), (162, 162), (163, 163), (164, 164), (165, 165), (166, 166), (167, 167),
  (168, 168), (169, 169), (170, 170), (171, 171), (172, 172), (174, 174), (175, 175), (176,
  176), (177, 177), (178, 178), (179, 179), (180, 180), (181, 181), (182, 182), (183, 183),
  (184, 184), (185, 185), (186, 186), (187, 187), (188, 188), (189, 189), (190, 190), (191,
  191), (192, 192), (193, 193), (194, 194), (195, 195), (196, 196), (197, 197), (198, 198),
  (199, 199), (200, 200), (201, 201), (202, 202), (203, 203), (204, 204), (205, 205), (206,
  206), (207, 207), (208, 208), (209, 209), (210, 210), (211, 211), (212, 212), (213, 213),
  (214, 214), (215, 215), (216, 216), (217, 217), (218, 218), (219, 219), (220, 220), (221,
  221), (222, 222), (223, 223), (224, 224), (225, 225), (226, 226), (227, 227), (228, 228),
  (229, 229), (230, 230), (231, 231), (232, 232), (233, 233), (234, 234), (235, 235), (236,
  236), (237, 237), (238, 238), (239, 239), (240, 240), (241, 241), (242, 242), (243, 243),
  (244, 244), (245, 245), (246, 246), (247, 247), (248, 248), (249, 249), (250, 250), (251,
  251), (252, 252), (253, 253), (254, 254), (255, 255), (0, 256), (1, 257), (2, 258), (3,
  259), (4, 260), (5, 261), (6, 262), (7, 263), (8, 264), (9, 265), (10, 266), (11, 267), (12,
  268), (13, 269), (14, 270), (15, 271), (16, 272), (17, 273), (18, 274), (19, 275), (20,
  276), (21, 277), (22, 278), (23, 279), (24, 280), (25, 281), (26, 282), (27, 283), (28,
  284), (29, 285), (30, 286), (31, 287), (32, 288), (127, 289), (128, 290), (129, 291), (130,
  292), (131, 293), (132, 294), (133, 295), (134, 296), (135, 297), (136, 298), (137, 299),
  (138, 300), (139, 301), (140, 302), (141, 303), (142, 304), (143, 305), (144, 306), (145,
  307), (146, 308), (147, 309), (148, 310), (149, 311), (150, 312), (151, 313), (152, 314),
  (153, 315), (154, 316), (155, 317), (156, 318), (157, 319), (158, 320), (159, 321), (160,
  322), (173, 323)]

theorem byteEncPairs_eq : byteEncPairs = byteEncPairsLit := by decide

theorem byte_roundtrip_aux : ∀ b : Fin 256, byte_decoder (byte_encoder b.val) = some b.val := by
  simp only [byte_decoder, byte_encoder, byteDecPairs, byteEncPairs_eq]
  decide

theorem byte_encoder_ne_32 : ∀ b : Fin 256, byte_encoder b.val ≠ 32 := by
  simp only [byte_encoder, byteEncPairs_eq]
  decide

/-! ## UTF-8 (Python `str.encode('utf-8')` / `bytes.decode('utf-8')`) -/

/-- A Unicode scalar value Python can encode to UTF-8 (no lone surrogates). -/
def ValidChar (c : Nat) : Prop := c < 1114112 ∧ ¬(55296 ≤ c ∧ c < 57344)

instance (c : Nat) : Decidable (ValidChar c) := by unfold ValidChar; infer_instance

/-- UTF-8 encoding of one scalar value. -/
def utf8EncodeChar (c : Nat) : List Nat :=
  if c < 128 then [c]
  else if c < 2048 then [192 + c / 64, 128 + c % 64]
  else if c < 65536 then [224 + c / 4096, 128 + c / 64 % 64, 128 + c % 64]
  else [240 + c / 262144, 128 + c / 4096 % 64, 128 + c / 64 % 64, 128 + c % 64]

/-- `s.encode('utf-8')` for a whole string. -/
def utf8Str (t : List Nat) : List Nat := (t.map utf8EncodeChar).flatten

def isCont (b : Nat) : Bool := decide (128 ≤ b) && decide (b < 192)

/-- Decode one UTF-8 sequence from the front (shortest form, surrogates
rejected); returns the scalar and the remaining bytes. -/
def utf8DecodeOne : List Nat → Option (Nat × List Nat)
  | [] => none
  | b :: rest =>
    if b < 128 then some (b, rest)
    else if b < 194 then none
    else if b < 224 then
      match rest with
      | b1 :: r2 =>
        if isCont b1 then some ((b - 192) * 64 + (b1 - 128), r2) else none
      | [] => none
    else if b < 240 then
      match rest with
      | b1 :: b2 :: r3 =>
        if isCont b1 && isCont b2 && !(decide (b = 224) && decide (b1 < 160))
            && !(decide (b = 237) && decide (160 ≤ b1))
        then some ((b - 224) * 4096 + (b1 - 128) * 64 + (b2 - 128), r3)
        else none
      | _ => none
    else if b < 245 then
      match rest with
      | b1 :: b2 :: b3 :: r4 =>
        if isCont b1 && isCont b2 && isCont b3 && !(decide (b = 240) && decide (b1 < 144))
            && !(decide (b = 244) && decide (144 ≤ b1))
        then some ((b - 240) * 262144 + (b1 - 128) * 4096 + (b2 - 128) * 64 + (b3 - 128), r4)
        else none
      | _ => none
    else none

/-- Strict UTF-8 decoding loop; the fuel is instantiated with the byte
count, which is always sufficient since every step consumes ≥ 1 byte. -/
def utf8DecodeF : Nat → List Nat → Option (List Nat)
  | _, [] => some []
  | 0, _ :: _ => none
  | fuel + 1, b :: rest =>
    match utf8DecodeOne (b :: rest) with
    | none => none
    | some (c, r) => (utf8DecodeF fuel r).map (c :: ·)

/-- `bytes.decode('utf-8')` (strict; the Python default for this class is
`errors='replace'`, which agrees with strict decoding on the valid byte
sequences these claims are about). -/
def utf8Decode (l : List Nat) : Option (List Nat) := utf8DecodeF l.length l

theorem utf8DecodeOne_shrink {l r : List Nat} {c : Nat}
    (h : utf8DecodeOne l = some (c, r)) : r.length < l.length := by
  match l with
  | [] => simp [utf8DecodeOne] at h
  | b :: rest =>
    simp only [utf8DecodeOne] at h
    split_ifs at h with h1 h2 h3 h4 h5
    · simp only [Option.some.injEq, Prod.mk.injEq] at h
      obtain ⟨-, rfl⟩ := h
      simp
    · match rest with
      | [] => simp at h
      | b1 :: r2 =>
        simp only at h
        split_ifs at h with hc
        simp only [Option.some.injEq, Prod.mk.injEq] at h
        obtain ⟨-, rfl⟩ := h
        simp
        omega
    · match rest with
      | [] => simp at h
      | [b1] => simp at h
      | b1 :: b2 :: r3 =>
        simp only at h
        split_ifs at h with hc
        simp only [Option.some.injEq, Prod.mk.injEq] at h
        obtain ⟨-, rfl⟩ := h
        simp
        omega
    · match rest with
      | [] => simp at h
      | [b1] => simp at h
      | [b1, b2] => simp at h
      | b1 :: b2 :: b3 :: r4 =>
        simp only at h
        split_ifs at h with hc
        simp only [Option.some.injEq, Prod.mk.injEq] at h
        obtain ⟨-, rfl⟩ := h
        simp
        omega

theorem utf8DecodeF_fuel :
    ∀ (f1 : Nat) (l : List Nat) (f2 : Nat), l.length ≤ f1 → l.length ≤ f2 →
      utf8DecodeF f1 l = utf8DecodeF f2 l := by
  intro f1
  induction f1 with
  | zero =>
    intro l f2 h1 _
    have : l = [] := List.eq_nil_of_length_eq_zero (Nat.le_zero.mp h1)
    subst this
    cases f2 <;> rfl
  | succ k ih =>
    intro l f2 h1 h2
    match l with
    | [] => cases f2 <;> rfl
    | b :: rest =>
      match f2 with
      | 0 => simp at h2
      | m + 1 =>
        rw [utf8DecodeF, utf8DecodeF]
        cases hone : utf8DecodeOne (b :: rest) with
        | none => rfl
        | some cr =>
          obtain ⟨c, r⟩ := cr
          have hlt : r.length < (b :: rest).length := utf8DecodeOne_shrink hone
          have := ih r m (by simp at hlt h1 ⊢; omega) (by simp at hlt h2 ⊢; omega)
          simp only [this]

theorem utf8DecodeOne_enc (c : Nat) (h : ValidChar c) (bs : List Nat) :
    utf8DecodeOne (utf8EncodeChar c ++ bs) = some (c, bs) := by
  obtain ⟨h1, h2⟩ := h
  unfold utf8EncodeChar
  by_cases hc1 : c < 128
  · rw [if_pos hc1, List.cons_append, List.nil_append]
    simp only [utf8DecodeOne, if_pos hc1]
  · by_cases hc2 : c < 2048
    · have e1 : ¬(192 + c / 64 < 128) := by omega
      have e2 : ¬(192 + c / 64 < 194) := by omega
      have e3 : 192 + c / 64 < 224 := by omega
      have e4 : isCont (128 + c % 64) = true := by
        simp only [isCont, Bool.and_eq_true, decide_eq_true_eq]; omega
      rw [if_neg hc1, if_pos hc2, List.cons_append, List.cons_append, List.nil_append]
      simp only [utf8DecodeOne]
      simp only [if_neg e1, if_neg e2, if_pos e3, e4, if_pos, Option.some.injEq,
        Prod.mk.injEq]
      constructor
      · omega
      · trivial
    · by_cases hc3 : c < 65536
      · have e1 : ¬(224 + c / 4096 < 128) := by omega
        have e2 : ¬(224 + c / 4096 < 194) := by omega
        have e3 : ¬(224 + c / 4096 < 224) := by omega
        have e4 : 224 + c / 4096 < 240 := by omega
        have e5 : (isCont (128 + c / 64 % 64) && isCont (128 + c % 64)
            && !(decide (224 + c / 4096 = 224) && decide (128 + c / 64 % 64 < 160))
            && !(decide (224 + c / 4096 = 237) && decide (160 ≤ 128 + c / 64 % 64))) = true := by
          simp only [isCont, Bool.and_eq_true, Bool.not_eq_true', Bool.and_eq_false_iff,
            decide_eq_true_eq, decide_eq_false_iff_not]
          omega
        rw [if_neg hc1, if_neg hc2, if_pos hc3, List.cons_append, List.cons_append,
          List.cons_append, List.nil_append]
        simp only [utf8DecodeOne]
        simp only [if_neg e1, if_neg e2, if_neg e3, if_pos e4, e5, if_pos, Option.some.injEq,
          Prod.mk.injEq]
        constructor
        · omega
        · trivial
      · have e1 : ¬(240 + c / 262144 < 128) := by omega
        have e2 : ¬(240 + c / 262144 < 194) := by omega
        have e3 : ¬(240 + c / 262144 < 224) := by omega
        have e4 : ¬(240 + c / 262144 < 240) := by omega
        have e5 : 240 + c / 262144 < 245 := by omega
        have e6 : (isCont (128 + c / 4096 % 64) && isCont (128 + c / 64 % 64)
            && isCont (128 + c % 64)
            && !(decide (240 + c / 262144 = 240) && decide (128 + c / 4096 % 64 < 144))
            && !(decide (240 + c / 262144 = 244) && decide (144 ≤ 128 + c / 4096 % 64))) = true := by
          simp only [isCont, Bool.and_eq_true, Bool.not_eq_true', Bool.and_eq_false_iff,
            decide_eq_true_eq, decide_eq_false_iff_not]
          omega
        rw [if_neg hc1, if_neg hc2, if_neg hc3, List.cons_append, List.cons_append,
          List.cons_append, List.cons_append, List.nil_append]
        simp only [utf8DecodeOne]
        simp only [if_neg e1, if_neg e2, if_neg e3, if_neg e4, if_pos e5, e6, if_pos,
          Option.some.injEq, Prod.mk.injEq]
        constructor
        · omega
        · trivial

theorem utf8EncodeChar_ne_nil (c : Nat) : utf8EncodeChar c ≠ [] := by
  unfold utf8EncodeChar
  split_ifs <;> simp

theorem utf8Decode_step (c : Nat) (h : ValidChar c) (bs : List Nat) :
    utf8Decode (utf8EncodeChar c ++ bs) = (utf8Decode bs).map (c :: ·) := by
  unfold utf8Decode
  have hone := utf8DecodeOne_enc c h bs
  match henc : utf8EncodeChar c ++ bs with
  | [] => exact absurd (List.append_eq_nil.mp henc).1 (utf8EncodeChar_ne_nil c)
  | b :: rest =>
    rw [henc] at hone
    have hlen : bs.length < (b :: rest).length := by
      have := congrArg List.length henc
      have hpos : 0 < (utf8EncodeChar c).length :=
        List.length_pos.mpr (utf8EncodeChar_ne_nil c)
      simp at this
      simp
      omega
    have hstep : utf8DecodeF (rest.length + 1) (b :: rest)
        = (utf8DecodeF rest.length bs).map (c :: ·) := by
      rw [utf8DecodeF, hone]
    have : (b :: rest).length = rest.length + 1 := by simp
    rw [this, hstep, utf8DecodeF_fuel rest.length bs bs.length (by simp at hlen; omega)
      (le_refl _)]

theorem utf8Str_append (a b : List Nat) : utf8Str (a ++ b) = utf8Str a ++ utf8Str b := by
  simp [utf8Str]

theorem utf8Decode_utf8Str (t : List Nat) (h : ∀ c ∈ t, ValidChar c) :
    utf8Decode (utf8Str t) = some t := by
  induction t with
  | nil => rfl
  | cons c rest ih =>
    have : utf8Str (c :: rest) = utf8EncodeChar c ++ utf8Str rest := by
      simp [utf8Str]
    rw [this, utf8Decode_step c (h c (List.mem_cons_self _ _)),
      ih (fun x hx => h x (List.mem_cons_of_mem _ hx))]
    rfl

/-! ## Pre-tokenizer (encoder.py line 53)
The pattern `'s|'t|'re|'ve|'m|'ll|'d| ?\p{L}+| ?\p{N}+| ?[^\s\p{L}\p{N}]+|\s+(?!\S)|\s+`
as an ordered-alternation matcher with the regex engine's backtracking
behaviour for ` ?` and for the lookahead `(?!\S)`. -/

/-- The Unicode character classes `\p{L}`, `\p{N}`, `\s` used by the
pattern. Their tables are data of the `regex` package, outside this
repository, so the model is parameterized over them; the theorems below
hold for every classifier. -/
structure Classifier where
  isL : Nat → Bool
  isN : Nat → Bool
  isS : Nat → Bool

/-- The seven contraction alternatives `'s|'t|'re|'ve|'m|'ll|'d`. -/
def matchContraction : List Nat → Option (List Nat)
  | 39 :: 115 :: _ => some [39, 115]
  | 39 :: 116 :: _ => some [39, 116]
  | 39 :: 114 :: 101 :: _ => some [39, 114, 101]
  | 39 :: 118 :: 101 :: _ => some [39, 118, 101]
  | 39 :: 109 :: _ => some [39, 109]
  | 39 :: 108 :: 108 :: _ => some [39, 108, 108]
  | 39 :: 100 :: _ => some [39, 100]
  | _ => none

/-- ` ?X+`: the greedy optional space, then a nonempty run of
`p`-characters; backtracks to not consuming the space when no run
follows it. -/
def ospaceRun (p : Nat → Bool) (cs : List Nat) : Option (List Nat) :=
  match cs with
  | [] => none
  | c :: rest =>
    if c = 32 ∧ ¬(rest.takeWhile p).isEmpty then some (32 :: rest.takeWhile p)
    else if ¬((c :: rest).takeWhile p).isEmpty then some ((c :: rest).takeWhile p)
    else none

/-- `\s+(?!\S)` with greedy backtracking: the maximal whitespace run if it
reaches the end of the string; otherwise one space less (failing when the
run has length 1, since `\s+` needs at least one character). -/
def wsNotBeforeNonspace (isS : Nat → Bool) (cs : List Nat) : Option (List Nat) :=
  if (cs.takeWhile isS).isEmpty then none
  else if (cs.drop (cs.takeWhile isS).length).isEmpty then some (cs.takeWhile isS)
  else if 2 ≤ (cs.takeWhile isS).length then
    some ((cs.takeWhile isS).take ((cs.takeWhile isS).length - 1))
  else none

/-- `\s+`: maximal nonempty whitespace run. -/
def wsRun (isS : Nat → Bool) (cs : List Nat) : Option (List Nat) :=
  if (cs.takeWhile isS).isEmpty then none else some (cs.takeWhile isS)

def isOther (K : Classifier) (c : Nat) : Bool := !K.isS c && !K.isL c && !K.isN c

/-- One match of the whole pattern at the head of `cs`, alternatives tried
in the pattern's order. -/
def tryMatch (K : Classifier) (cs : List Nat) : Option (List Nat) :=
  (matchContraction cs).orElse fun _ =>
  (ospaceRun K.isL cs).orElse fun _ =>
  (ospaceRun K.isN cs).orElse fun _ =>
  (ospaceRun (isOther K) cs).orElse fun _ =>
  (wsNotBeforeNonspace K.isS cs).orElse fun _ =>
  wsRun K.isS cs

/-- `re.findall(self.pat, text)`: match at the current position and advance
past the match, or (were no alternative to match) skip one character. -/
def findAllF (K : Classifier) : Nat → List Nat → List (List Nat)
  | 0, _ => []
  | _ + 1, [] => []
  | fuel + 1, c :: t =>
    match tryMatch K (c :: t) with
    | some ch => ch :: findAllF K fuel ((c :: t).drop ch.length)
    | none => findAllF K fuel t

def findAll (K : Classifier) (cs : List Nat) : List (List Nat) := findAllF K cs.length cs


theorem matchContraction_split {cs ch : List Nat} (h : matchContraction cs = some ch) :
    ch ≠ [] ∧ ∃ rest, cs = ch ++ rest := by
  rw [matchContraction.eq_def] at h
  split at h <;> cases h <;> exact ⟨by simp, _, rfl⟩

theorem ospaceRun_split {p : Nat → Bool} {cs ch : List Nat} (h : ospaceRun p cs = some ch) :
    ch ≠ [] ∧ ∃ rest, cs = ch ++ rest := by
  rw [ospaceRun.eq_def] at h
  split at h
  case h_1 => exact absurd h (by simp)
  case h_2 c rest =>
    split_ifs at h with h1 h2
    · cases h
      obtain ⟨hc, hne⟩ := h1
      subst hc
      refine ⟨by simp, rest.dropWhile p, ?_⟩
      simp [List.takeWhile_append_dropWhile]
    · cases h
      refine ⟨by simpa using h2, (c :: rest).dropWhile p, ?_⟩
      exact (List.takeWhile_append_dropWhile p (c :: rest)).symm

theorem wsNotBeforeNonspace_split {isS : Nat → Bool} {cs ch : List Nat}
    (h : wsNotBeforeNonspace isS cs = some ch) :
    ch ≠ [] ∧ ∃ rest, cs = ch ++ rest := by
  unfold wsNotBeforeNonspace at h
  split_ifs at h with h1 h2 h3
  · cases h
    refine ⟨by simpa using h1, cs.dropWhile isS, ?_⟩
    exact (List.takeWhile_append_dropWhile isS cs).symm
  · cases h
    constructor
    · intro hnil
      have := congrArg List.length hnil
      simp only [List.length_take, List.length_nil] at this
      have hne : ¬(cs.takeWhile isS).isEmpty := h1
      rw [List.isEmpty_iff] at hne
      have hpos : 0 < (cs.takeWhile isS).length := List.length_pos.mpr hne
      omega
    · refine ⟨(cs.takeWhile isS).drop ((cs.takeWhile isS).length - 1) ++ cs.dropWhile isS, ?_⟩
      rw [← List.append_assoc, List.take_append_drop, List.takeWhile_append_dropWhile]

theorem wsRun_split {isS : Nat → Bool} {cs ch : List Nat} (h : wsRun isS cs = some ch) :
    ch ≠ [] ∧ ∃ rest, cs = ch ++ rest := by
  unfold wsRun at h
  split_ifs at h with h1
  cases h
  refine ⟨by simpa using h1, cs.dropWhile isS, ?_⟩
  exact (List.takeWhile_append_dropWhile isS cs).symm

theorem tryMatch_split {K : Classifier} {cs ch : List Nat} (h : tryMatch K cs = some ch) :
    ch ≠ [] ∧ ∃ rest, cs = ch ++ rest := by
  unfold tryMatch at h
  cases h1 : matchContraction cs with
  | some v => rw [h1] at h; simp only [Option.orElse] at h; cases h; exact matchContraction_split h1
  | none =>
  rw [h1] at h; simp only [Option.orElse] at h
  cases h2 : ospaceRun K.isL cs with
  | some v => rw [h2] at h; simp only [Option.orElse] at h; cases h; exact ospaceRun_split h2
  | none =>
  rw [h2] at h; simp only [Option.orElse] at h
  cases h3 : ospaceRun K.isN cs with
  | some v => rw [h3] at h; simp only [Option.orElse] at h; cases h; exact ospaceRun_split h3
  | none =>
  rw [h3] at h; simp only [Option.orElse] at h
  cases h4 : ospaceRun (isOther K) cs with
  | some v => rw [h4] at h; simp only [Option.orElse] at h; cases h; exact ospaceRun_split h4
  | none =>
  rw [h4] at h; simp only [Option.orElse] at h
  cases h5 : wsNotBeforeNonspace K.isS cs with
  | some v => rw [h5] at h; simp only [Option.orElse] at h; cases h; exact wsNotBeforeNonspace_split h5
  | none =>
  rw [h5] at h; simp only [Option.orElse] at h
  exact wsRun_split h

theorem orElse_isSome_of {α : Type} {a : Option α} {f : Unit → Option α}
    (h : (f ()).isSome) : (a.orElse f).isSome := by
  cases a <;> simp [Option.orElse, h]

theorem ospaceRun_isSome {p : Nat → Bool} {c : Nat} (t : List Nat) (hc : p c = true) :
    (ospaceRun p (c :: t)).isSome := by
  rw [ospaceRun.eq_def]
  split
  case h_1 heq => cases heq
  case h_2 c' rest heq =>
    cases heq
    split_ifs with h1 h2 <;> simp_all [List.takeWhile_cons, hc]

theorem wsRun_isSome {isS : Nat → Bool} {c : Nat} (t : List Nat) (hc : isS c = true) :
    (wsRun isS (c :: t)).isSome := by
  unfold wsRun
  split_ifs with h1
  · exact absurd h1 (by simp [List.takeWhile_cons, hc])
  · simp

theorem tryMatch_isSome (K : Classifier) (c : Nat) (t : List Nat) :
    (tryMatch K (c :: t)).isSome := by
  unfold tryMatch
  by_cases hS : K.isS c
  · exact orElse_isSome_of (orElse_isSome_of (orElse_isSome_of (orElse_isSome_of
      (orElse_isSome_of (wsRun_isSome t hS)))))
  · by_cases hL : K.isL c
    · exact orElse_isSome_of (orElse_isSome_left (ospaceRun_isSome t hL))
    · by_cases hN : K.isN c
      · exact orElse_isSome_of (orElse_isSome_of (orElse_isSome_left (ospaceRun_isSome t hN)))
      · have hO : isOther K c = true := by
          simp [isOther, hS, hL, hN]
        exact orElse_isSome_of (orElse_isSome_of (orElse_isSome_of
          (orElse_isSome_left (ospaceRun_isSome t hO))))
where
  orElse_isSome_left {α : Type} {a : Option α} {f : Unit → Option α}
      (h : a.isSome) : (a.orElse f).isSome := by
    cases a
    · simp at h
    · simp [Option.orElse]

theorem findAllF_cons_some {K : Classifier} {fuel c : Nat} {t ch : List Nat}
    (h : tryMatch K (c :: t) = some ch) :
    findAllF K (fuel + 1) (c :: t) = ch :: findAllF K fuel ((c :: t).drop ch.length) := by
  rw [findAllF, h]

theorem findAllF_flatten (K : Classifier) :
    ∀ (fuel : Nat) (cs : List Nat), cs.length ≤ fuel → (findAllF K fuel cs).flatten = cs := by
  intro fuel
  induction fuel with
  | zero =>
    intro cs h
    have : cs = [] := List.eq_nil_of_length_eq_zero (Nat.le_zero.mp h)
    subst this
    rfl
  | succ k ih =>
    intro cs h
    cases cs with
    | nil => rfl
    | cons c t =>
      obtain ⟨ch, hch⟩ := Option.isSome_iff_exists.mp (tryMatch_isSome K c t)
      obtain ⟨hne, rest, hrest⟩ := tryMatch_split hch
      rw [findAllF_cons_some hch, List.flatten_cons, hrest, List.drop_left]
      have hchlen : 1 ≤ ch.length := by
        cases ch
        · exact absurd rfl hne
        · simp
      have hlen : rest.length ≤ k := by
        have h2 : t.length + 1 = ch.length + rest.length := by
          have := congrArg List.length hrest
          simpa using this
        have h3 : t.length + 1 ≤ k + 1 := by simpa using h
        omega
      rw [ih rest hlen]

theorem findAllF_nonempty (K : Classifier) :
    ∀ (fuel : Nat) (cs ch : List Nat), ch ∈ findAllF K fuel cs → ch ≠ [] := by
  intro fuel
  induction fuel with
  | zero => intro cs ch h; simp [findAllF] at h
  | succ k ih =>
    intro cs ch h
    match cs with
    | [] => simp [findAllF] at h
    | c :: t =>
      cases hm : tryMatch K (c :: t) with
      | none =>
        rw [findAllF, hm] at h
        exact ih t ch h
      | some ch' =>
        rw [findAllF_cons_some hm] at h
        rcases List.mem_cons.mp h with h1 | h2
        · subst h1; exact (tryMatch_split hm).1
        · exact ih _ ch h2

theorem findAll_flatten (K : Classifier) (cs : List Nat) : (findAll K cs).flatten = cs :=
  findAllF_flatten K cs.length cs (le_refl _)

theorem findAll_nonempty (K : Classifier) (cs : List Nat) :
    ∀ ch ∈ findAll K cs, ch ≠ [] :=
  fun ch h => findAllF_nonempty K cs.length cs ch h

/-! ## BPE merging (encoder.py `get_pairs` lines 30–40, `Encoder.bpe` lines 58–99) -/

/-- `get_pairs(word)`: the adjacent symbol pairs. The source builds a set
(and faults on an empty word via `word[0]`); duplicates and iteration
order are irrelevant downstream because the selection key is injective on
ranked pairs, so the plain list of adjacent pairs is an exact model. -/
def get_pairs (word : List Symb) : List (Symb × Symb) := word.zip word.tail

/-- `min(pairs, key=lambda pair: self.bpe_ranks.get(pair, float('inf')))`
followed by the `bigram not in self.bpe_ranks` test: the ranked pair of
minimal rank, or `none` when no adjacent pair is ranked (in the source
`min` then returns an arbitrary infinite-rank pair and the loop breaks). -/
def bestPair (ranks : Symb × Symb → Option Nat) (pairs : List (Symb × Symb)) :
    Option ((Symb × Symb) × Nat) :=
  pairs.foldl
    (fun acc p =>
      match ranks p with
      | none => acc
      | some r =>
        match acc with
        | none => some (p, r)
        | some (_, rq) => if r < rq then some (p, r) else acc)
    none

/-- One merge pass: replace every non-overlapping occurrence of the
adjacent pair `(f, s)` by the combined symbol, scanning left to right. -/
def mergePairs (f s : Symb) : List Symb → List Symb
  | [] => []
  | [x] => [x]
  | x :: y :: rest =>
    if x = f ∧ y = s then (f ++ s) :: mergePairs f s rest
    else x :: mergePairs f s (y :: rest)

/-- The source's inner `while i < len(word)` loop: jump to the next
occurrence of `first` with `word.index(first, i)` (copying the skipped
symbols), then merge if `second` follows, else copy one symbol. -/
def mergePassSrcF (f s : Symb) : Nat → List Symb → List Symb
  | 0, word => word
  | fuel + 1, word =>
    match word.dropWhile (· ≠ f) with
    | [] => word
    | x :: suf =>
      match suf with
      | y :: suf2 =>
        if y = s then word.takeWhile (· ≠ f) ++ (f ++ s) :: mergePassSrcF f s fuel suf2
        else word.takeWhile (· ≠ f) ++ x :: mergePassSrcF f s fuel suf
      | [] => word.takeWhile (· ≠ f) ++ [x]

/-- The source's outer `while True` loop: pick the best pair, stop if none
is ranked, merge, stop at a single symbol, else recompute the pairs. -/
def bpeLoopF (ranks : Symb × Symb → Option Nat) : Nat → List Symb → List Symb
  | 0, word => word
  | fuel + 1, word =>
    match bestPair ranks (get_pairs word) with
    | none => word
    | some (p, _) =>
      if (mergePassSrcF p.1 p.2 word.length word).length = 1 then
        mergePassSrcF p.1 p.2 word.length word
      else bpeLoopF ranks fuel (mergePassSrcF p.1 p.2 word.length word)

/-- `' '.join(word)`. -/
def joinSpace : List Symb → List Nat
  | [] => []
  | [s] => s
  | s :: rest => s ++ 32 :: joinSpace rest

/-- `Encoder.bpe` on a cache miss, without the cache write: `none` models
the IndexError `get_pairs` raises on an empty token; a token without
pairs (single character) is returned unchanged. -/
def bpe_long (ranks : Symb × Symb → Option Nat) (token : List Nat) : List Nat :=
  joinSpace (bpeLoopF ranks token.length (token.map (fun c => [c])))

def bpe_pure (ranks : Symb × Symb → Option Nat) (token : List Nat) : Option (List Nat) :=
  if token.length = 0 then none
  else if token.length = 1 then some token
  else some (bpe_long ranks token)

/-- Python `str.split(' ')` with a single-space separator (empty pieces
kept, `''.split(' ') == ['']`). -/
def splitSpace : List Nat → List (List Nat)
  | [] => [[]]
  | c :: rest =>
    if c = 32 then [] :: splitSpace rest
    else
      match splitSpace rest with
      | [] => [[c]]
      | w :: ws => (c :: w) :: ws

/-! ## The memo cache (encoder.py lines 50, 59–60, 96–98) -/

/-- The cache dict in insertion order. -/
abbrev Cache := List (List Nat × List Nat)

/-- `while len(self.cache) > 1000: self.cache.popitem()` — `popitem`
removes the most recently inserted entry (LIFO on a Python ≥ 3.7 dict). -/
def evictF {α : Type} : Nat → List α → List α
  | 0, l => l
  | fuel + 1, l => if l.length ≤ 1000 then l else evictF fuel l.dropLast

def evict {α : Type} (l : List α) : List α := evictF l.length l

/-- `Encoder.bpe` with its cache: hit returns the cached string; a miss
computes, stores (single-character tokens return before the store) and
evicts down to the capacity. -/
def bpe (ranks : Symb × Symb → Option Nat) (cache : Cache) (token : List Nat) :
    Option (List Nat × Cache) :=
  match dictLookup cache token with
  | some w => some (w, cache)
  | none =>
    if token.length = 0 then none
    else if token.length = 1 then some (token, cache)
    else some (bpe_long ranks token, evict (cache ++ [(token, bpe_long ranks token)]))

/-! ## The Encoder class (encoder.py lines 42–118) -/

/-- `<|endoftext|>` as code points. -/
def sepSym : List Nat := [60, 124, 101, 110, 100, 111, 102, 116, 101, 120, 116, 124, 62]

/-- The constructor state: the vocabulary (`encoder.json` as a pair list
with unique keys) and the merge list (`vocab.bpe` lines in order). The
derived dicts (`decoder`, `bpe_ranks`, `byte_encoder`, `byte_decoder`)
are recomputed by the functions below. -/
structure Encoder where
  encoder : List (List Nat × Nat)
  bpe_merges : List (Symb × Symb)

/-- `self.bpe_ranks = dict(zip(bpe_merges, range(len(bpe_merges))))`. -/
def bpe_ranks (e : Encoder) : Symb × Symb → Option Nat :=
  fun p => dictLookup (e.bpe_merges.zip (List.range e.bpe_merges.length)) p

/-- `self.decoder = {v:k for k,v in self.encoder.items()}`. -/
def decoderPairs (e : Encoder) : List (Nat × List Nat) := e.encoder.map Prod.swap

/-- `Encoder.__init__`: raises `ValueError` (modelled `none`) when the
vocabulary lacks `<|endoftext|>`. -/
def mkEncoder (encoder : List (List Nat × Nat)) (bpe_merges : List (Symb × Symb)) :
    Option Encoder :=
  if (dictLookup encoder sepSym).isSome then some ⟨encoder, bpe_merges⟩ else none

/-- Index of the first occurrence of `sep` in the string, if any. -/
def firstOcc (sep : List Nat) : List Nat → Option Nat
  | [] => none
  | c :: t =>
    if (c :: t).take sep.length = sep then some 0
    else (firstOcc sep t).map (· + 1)

/-- Python `text.split(sep)` for a non-empty literal separator. -/
def splitSepF (sep : List Nat) : Nat → List Nat → List (List Nat)
  | 0, s => [s]
  | fuel + 1, s =>
    match firstOcc sep s with
    | none => [s]
    | some i => s.take i :: splitSepF sep fuel (s.drop (i + sep.length))

/-- `text.split('<|endoftext|>')`. -/
def splitSep (s : List Nat) : List (List Nat) := splitSepF sepSym s.length s

/-- One chunk's surrogate token:
`''.join(self.byte_encoder[b] for b in token.encode('utf-8'))`. -/
def surrogate (ch : List Nat) : List Nat := (utf8Str ch).map byte_encoder

/-- The inner loop of `Encoder.encode` over one fragment's chunks:
`bpe_tokens.extend(self.encoder[t] for t in self.bpe(token).split(' '))`,
threading the memo cache. -/
def encodeChunks (e : Encoder) : List (List Nat) → Cache → Option (List Nat × Cache)
  | [], cache => some ([], cache)
  | ch :: rest, cache =>
    match bpe (bpe_ranks e) cache (surrogate ch) with
    | none => none
    | some (w, c1) =>
      match omap (dictLookup e.encoder) (splitSpace w) with
      | none => none
      | some ids =>
        match encodeChunks e rest c1 with
        | none => none
        | some (ids2, c2) => some (ids ++ ids2, c2)

/-- The fragments after the first: each is preceded by the separator id. -/
def encodeRest (e : Encoder) (K : Classifier) (mid : Nat) :
    List (List Nat) → Cache → Option (List Nat × Cache)
  | [], cache => some ([], cache)
  | p :: ps, cache =>
    match encodeChunks e (findAll K p) cache with
    | none => none
    | some (ids1, c1) =>
      match encodeRest e K mid ps c1 with
      | none => none
      | some (ids2, c2) => some (mid :: ids1 ++ ids2, c2)

/-- `Encoder.encode` (lines 101–113): split on the literal separator; the
first fragment sets `mid = self.encoder['<|endoftext|>']` (KeyError when
absent), later fragments emit `mid` first; each fragment is pre-tokenized
and its chunks merged and mapped to ids. -/
def encode (e : Encoder) (K : Classifier) (cache : Cache) (text : List Nat) :
    Option (List Nat × Cache) :=
  match splitSep text with
  | [] => some ([], cache)
  | p :: ps =>
    match dictLookup e.encoder sepSym with
    | none => none
    | some mid =>
      match encodeChunks e (findAll K p) cache with
      | none => none
      | some (ids1, c1) =>
        match encodeRest e K mid ps c1 with
        | none => none
        | some (ids2, c2) => some (ids1 ++ ids2, c2)

/-- `Encoder.decode` (lines 115–118): ids → symbols via `self.decoder`,
concatenate, surrogate characters → bytes via `self.byte_decoder`, then
UTF-8 decoding of the byte string. -/
def decode (e : Encoder) (tokens : List Nat) : Option (List Nat) :=
  match omap (dictLookup (decoderPairs e)) tokens with
  | none => none
  | some syms =>
    match omap byte_decoder syms.flatten with
    | none => none
    | some bytes => utf8Decode bytes

/-- An ASCII instantiation of the character classifier (agreeing with the
Unicode classes on ASCII input), used for concrete instances. -/
def asciiK : Classifier :=
  ⟨fun c => (decide (65 ≤ c) && decide (c ≤ 90)) || (decide (97 ≤ c) && decide (c ≤ 122)),
   fun c => decide (48 ≤ c) && decide (c ≤ 57),
   fun c => c == 32 || c == 9 || c == 10 || c == 13 || c == 11 || c == 12⟩

/-! ## Merge-pass lemmas -/

theorem get_pairs_cons2 (x y : Symb) (rest : List Symb) :
    get_pairs (x :: y :: rest) = (x, y) :: get_pairs (y :: rest) := rfl

theorem mergePairs_flatten (f s : Symb) :
    ∀ w : List Symb, (mergePairs f s w).flatten = w.flatten
  | [] => rfl
  | [x] => rfl
  | x :: y :: rest => by
    rw [mergePairs]
    split_ifs with h
    · obtain ⟨hx, hy⟩ := h
      simp only [hx, hy, List.flatten_cons, mergePairs_flatten f s rest, List.append_assoc]
    · simp only [List.flatten_cons, mergePairs_flatten f s (y :: rest)]

theorem mergePairs_ne_nil (f s : Symb) :
    ∀ w : List Symb, (∀ x ∈ w, x ≠ []) → ∀ x ∈ mergePairs f s w, x ≠ []
  | [], _ => by simp [mergePairs]
  | [x], h => by simpa [mergePairs] using h
  | x :: y :: rest, h => by
    rw [mergePairs]
    split_ifs with hc
    · intro z hz
      rcases List.mem_cons.mp hz with h1 | h2
      · subst h1
        obtain ⟨hx, hy⟩ := hc
        have hfne : f ≠ [] := by
          rw [← hx]
          exact h x (List.mem_cons_self _ _)
        simp [hfne]
      · exact mergePairs_ne_nil f s rest
          (fun a ha => h a (List.mem_cons_of_mem _ (List.mem_cons_of_mem _ ha))) z h2
    · intro z hz
      rcases List.mem_cons.mp hz with h1 | h2
      · subst h1
        exact h z (List.mem_cons_self _ _)
      · exact mergePairs_ne_nil f s (y :: rest)
          (fun a ha => h a (List.mem_cons_of_mem _ ha)) z h2

theorem mergePairs_length_le (f s : Symb) :
    ∀ w : List Symb, (mergePairs f s w).length ≤ w.length
  | [] => le_refl _
  | [x] => le_refl _
  | x :: y :: rest => by
    rw [mergePairs]
    split_ifs with hc
    · have := mergePairs_length_le f s rest
      simp only [List.length_cons]
      omega
    · have := mergePairs_length_le f s (y :: rest)
      simp only [List.length_cons] at this ⊢
      omega

theorem mergePairs_length_lt (f s : Symb) :
    ∀ w : List Symb, (f, s) ∈ get_pairs w → (mergePairs f s w).length < w.length
  | [], h => by simp [get_pairs] at h
  | [x], h => by simp [get_pairs] at h
  | x :: y :: rest, h => by
    rw [mergePairs]
    rcases List.mem_cons.mp (get_pairs_cons2 x y rest ▸ h) with h1 | h2
    · have hx : x = f := (congrArg Prod.fst h1).symm
      have hy : y = s := (congrArg Prod.snd h1).symm
      rw [if_pos ⟨hx, hy⟩]
      have := mergePairs_length_le f s rest
      simp only [List.length_cons]
      omega
    · split_ifs with hc
      · have := mergePairs_length_le f s rest
        simp only [List.length_cons]
        omega
      · have := mergePairs_length_lt f s (y :: rest) h2
        simp only [List.length_cons] at this ⊢
        omega

theorem mergePairs_cons_ne {f : Symb} (s : Symb) {x : Symb} (rest : List Symb) (hx : x ≠ f) :
    mergePairs f s (x :: rest) = x :: mergePairs f s rest := by
  cases rest with
  | nil => rfl
  | cons y r2 =>
    rw [mergePairs]
    rw [if_neg]
    rintro ⟨h1, -⟩
    exact hx h1

theorem mergePairs_skip {f : Symb} (s : Symb) {pre : List Symb} (rest : List Symb)
    (h : ∀ c ∈ pre, c ≠ f) : mergePairs f s (pre ++ rest) = pre ++ mergePairs f s rest := by
  induction pre with
  | nil => rfl
  | cons c t ih =>
    rw [List.cons_append, mergePairs_cons_ne s _ (h c (List.mem_cons_self _ _)),
      ih (fun a ha => h a (List.mem_cons_of_mem _ ha)), List.cons_append]

theorem dropWhile_head_false {α : Type} {p : α → Bool} :
    ∀ {w : List α} {x : α} {suf : List α}, w.dropWhile p = x :: suf → p x = false := by
  intro w
  induction w with
  | nil => intro x suf h; simp [List.dropWhile] at h
  | cons c t ih =>
    intro x suf h
    rw [List.dropWhile_cons] at h
    split_ifs at h with hc
    · exact ih h
    · cases h
      simpa using hc

theorem mem_takeWhile_holds {α : Type} {p : α → Bool} :
    ∀ {w : List α} {x : α}, x ∈ w.takeWhile p → p x = true := by
  intro w
  induction w with
  | nil => intro x h; simp [List.takeWhile] at h
  | cons c t ih =>
    intro x h
    rw [List.takeWhile_cons] at h
    split_ifs at h with hc
    · rcases List.mem_cons.mp h with h1 | h2
      · subst h1; exact hc
      · exact ih h2
    · simp at h

theorem mergePassSrc_eq (f s : Symb) :
    ∀ (fuel : Nat) (w : List Symb), w.length ≤ fuel →
      mergePassSrcF f s fuel w = mergePairs f s w := by
  intro fuel
  induction fuel with
  | zero =>
    intro w h
    have : w = [] := List.eq_nil_of_length_eq_zero (Nat.le_zero.mp h)
    subst this
    rfl
  | succ k ih =>
    intro w h
    cases hd : w.dropWhile (· ≠ f) with
    | nil =>
      have hstep : mergePassSrcF f s (k + 1) w = w := by
        rw [mergePassSrcF, hd]
      have hall : ∀ c ∈ w, c ≠ f := by
        intro c hc
        have := (List.dropWhile_eq_nil_iff).mp hd c hc
        simpa using this
      have h2 := mergePairs_skip (f := f) s ([] : List Symb) hall
      rw [hstep]
      simpa [mergePairs] using h2.symm
    | cons x suf =>
      have hw : w = w.takeWhile (· ≠ f) ++ x :: suf := by
        rw [← hd, List.takeWhile_append_dropWhile]
      have hpre : ∀ c ∈ w.takeWhile (· ≠ f), c ≠ f := by
        intro c hc
        have := mem_takeWhile_holds hc
        simpa using this
      have hx : x = f := by
        have := dropWhile_head_false hd
        simpa using this
      have hdl : (x :: suf).length ≤ w.length := by
        rw [← hd]
        exact (List.dropWhile_sublist _).length_le
      cases suf with
      | nil =>
        have hstep : mergePassSrcF f s (k + 1) w = w.takeWhile (· ≠ f) ++ [x] := by
          rw [mergePassSrcF, hd]
        rw [hstep]
        conv_rhs => rw [hw]
        rw [mergePairs_skip s [x] hpre, hx]
        rfl
      | cons y suf2 =>
        have hstep : mergePassSrcF f s (k + 1) w =
            if y = s then w.takeWhile (· ≠ f) ++ (f ++ s) :: mergePassSrcF f s k suf2
            else w.takeWhile (· ≠ f) ++ x :: mergePassSrcF f s k (y :: suf2) := by
          rw [mergePassSrcF, hd]
        rw [hstep]
        split_ifs with hy
        · conv_rhs => rw [hw]
          rw [mergePairs_skip s (x :: y :: suf2) hpre, hx, hy, mergePairs, if_pos ⟨rfl, rfl⟩]
          rw [ih suf2 (by simp at hdl; omega)]
        · conv_rhs => rw [hw]
          rw [mergePairs_skip s (x :: y :: suf2) hpre]
          rw [mergePairs, if_neg (by rintro ⟨h1, h2⟩; exact hy h2)]
          rw [ih (y :: suf2) (by simp at hdl ⊢; omega)]

/-! ## Pair-selection lemmas -/

theorem bestPair_aux (ranks : Symb × Symb → Option Nat) :
    ∀ (pairs : List (Symb × Symb)) (acc : Option ((Symb × Symb) × Nat))
      (p : Symb × Symb) (r : Nat),
      pairs.foldl
        (fun acc p =>
          match ranks p with
          | none => acc
          | some r =>
            match acc with
            | none => some (p, r)
            | some (_, rq) => if r < rq then some (p, r) else acc)
        acc = some (p, r) →
      acc = some (p, r) ∨ (p ∈ pairs ∧ ranks p = some r) := by
  intro pairs
  induction pairs with
  | nil => intro acc p r h; exact Or.inl h
  | cons q t ih =>
    intro acc p r h
    rw [List.foldl_cons] at h
    rcases ih _ p r h with h1 | h2
    · cases hq : ranks q with
      | none => rw [hq] at h1; exact Or.inl h1
      | some rq =>
        rw [hq] at h1
        cases acc with
        | none =>
          simp only [Option.some.injEq, Prod.mk.injEq] at h1
          obtain ⟨hq1, hr1⟩ := h1
          subst hq1
          subst hr1
          exact Or.inr ⟨List.mem_cons_self _ _, hq⟩
        | some a =>
          obtain ⟨q', rq'⟩ := a
          have h2 : (if rq < rq' then some (q, rq) else some (q', rq')) = some (p, r) := h1
          split_ifs at h2 with hlt
          · simp only [Option.some.injEq, Prod.mk.injEq] at h2
            obtain ⟨hq1, hr1⟩ := h2
            subst hq1
            subst hr1
            exact Or.inr ⟨List.mem_cons_self _ _, hq⟩
          · exact Or.inl h2
    · exact Or.inr ⟨List.mem_cons_of_mem _ h2.1, h2.2⟩

theorem bestPair_mem {ranks : Symb × Symb → Option Nat} {pairs : List (Symb × Symb)}
    {p : Symb × Symb} {r : Nat} (h : bestPair ranks pairs = some (p, r)) :
    p ∈ pairs ∧ ranks p = some r := by
  rcases bestPair_aux ranks pairs none p r h with h1 | h2
  · cases h1
  · exact h2

theorem bpeLoopF_inv (ranks : Symb × Symb → Option Nat) :
    ∀ (fuel : Nat) (w : List Symb), w.length ≤ fuel →
      (bpeLoopF ranks fuel w).flatten = w.flatten ∧
      ((∀ x ∈ w, x ≠ []) → ∀ x ∈ bpeLoopF ranks fuel w, x ≠ []) := by
  intro fuel
  induction fuel with
  | zero => intro w h; exact ⟨rfl, fun hw => hw⟩
  | succ k ih =>
    intro w h
    cases hb : bestPair ranks (get_pairs w) with
    | none =>
      have hstep : bpeLoopF ranks (k + 1) w = w := by
        rw [bpeLoopF, hb]
      rw [hstep]
      exact ⟨rfl, fun hw => hw⟩
    | some pr =>
      obtain ⟨p, r⟩ := pr
      have hmem := bestPair_mem hb
      have hsrc : mergePassSrcF p.1 p.2 w.length w = mergePairs p.1 p.2 w :=
        mergePassSrc_eq p.1 p.2 w.length w (le_refl _)
      have hlt : (mergePairs p.1 p.2 w).length < w.length := by
        apply mergePairs_length_lt
        simpa using hmem.1
      have hstep : bpeLoopF ranks (k + 1) w =
          if (mergePassSrcF p.1 p.2 w.length w).length = 1 then
            mergePassSrcF p.1 p.2 w.length w
          else bpeLoopF ranks k (mergePassSrcF p.1 p.2 w.length w) := by
        rw [bpeLoopF, hb]
      rw [hstep, hsrc]
      split_ifs with h1
      · exact ⟨mergePairs_flatten p.1 p.2 w, fun hw => mergePairs_ne_nil p.1 p.2 w hw⟩
      · have hk : (mergePairs p.1 p.2 w).length ≤ k := by omega
        obtain ⟨ihf, ihn⟩ := ih (mergePairs p.1 p.2 w) hk
        refine ⟨by rw [ihf, mergePairs_flatten], fun hw => ?_⟩
        exact ihn (mergePairs_ne_nil p.1 p.2 w hw)

/-! ## splitSpace / joinSpace -/

theorem splitSpace_ne_nil : ∀ s : List Nat, splitSpace s ≠ []
  | [] => by simp [splitSpace]
  | c :: rest => by
    rw [splitSpace]
    split_ifs with hc
    · simp
    · cases h : splitSpace rest <;> simp

theorem splitSpace_append_nospace {s : List Nat} (r : List Nat) (h : ∀ c ∈ s, c ≠ 32) :
    ∀ {w : List Nat} {ws : List (List Nat)}, splitSpace r = w :: ws →
      splitSpace (s ++ r) = (s ++ w) :: ws := by
  induction s with
  | nil => intro w ws hr; simpa using hr
  | cons c t ih =>
    intro w ws hr
    have hc : c ≠ 32 := h c (List.mem_cons_self _ _)
    rw [List.cons_append, splitSpace, if_neg hc,
      ih (fun a ha => h a (List.mem_cons_of_mem _ ha)) hr]
    rfl

theorem splitSpace_joinSpace :
    ∀ syms : List Symb, syms ≠ [] → (∀ s ∈ syms, ∀ c ∈ s, c ≠ 32) →
      splitSpace (joinSpace syms) = syms
  | [], h, _ => absurd rfl h
  | [s], _, hs => by
    rw [joinSpace]
    have hr : splitSpace ([] : List Nat) = [] :: [] := rfl
    have := splitSpace_append_nospace ([] : List Nat)
      (fun c hc => hs s (List.mem_cons_self _ _) c hc) hr
    simpa using this
  | s :: s2 :: rest, _, hs => by
    rw [joinSpace]
    have hrec : splitSpace (joinSpace (s2 :: rest)) = s2 :: rest :=
      splitSpace_joinSpace (s2 :: rest) (by simp)
        (fun a ha c hc => hs a (List.mem_cons_of_mem _ ha) c hc)
    have h32 : splitSpace (32 :: joinSpace (s2 :: rest)) = [] :: s2 :: rest := by
      rw [splitSpace, if_pos rfl, hrec]
    have := splitSpace_append_nospace (32 :: joinSpace (s2 :: rest))
      (fun c hc => hs s (List.mem_cons_self _ _) c hc) h32
    simpa using this
    simp

theorem joinSpace_flatten_sub :
    ∀ syms : List Symb, ∀ c ∈ joinSpace syms, c = 32 ∨ c ∈ syms.flatten
  | [] => by simp [joinSpace]
  | [s] => by
    intro c hc
    right
    simpa using hc
  | s :: s2 :: rest => by
    intro c hc
    rw [joinSpace] at hc
    rcases List.mem_append.mp hc with h1 | h2
    · right
      simp [h1]
    · rcases List.mem_cons.mp h2 with h3 | h4
      · exact Or.inl h3
      · rcases joinSpace_flatten_sub (s2 :: rest) c h4 with h5 | h6
        · exact Or.inl h5
        · right
          simp only [List.flatten_cons, List.mem_append] at h6 ⊢
          tauto
    simp

/-! ## Cache lemmas -/

theorem evictF_le {α : Type} :
    ∀ (fuel : Nat) (l : List α), l.length ≤ fuel + 1000 → (evictF fuel l).length ≤ 1000 := by
  intro fuel
  induction fuel with
  | zero => intro l h; simpa [evictF] using h
  | succ k ih =>
    intro l h
    rw [evictF]
    split_ifs with h1
    · exact h1
    · exact ih l.dropLast (by simp [List.length_dropLast]; omega)

theorem evict_le {α : Type} (l : List α) : (evict l).length ≤ 1000 :=
  evictF_le l.length l (by omega)

theorem evictF_subset {α : Type} :
    ∀ (fuel : Nat) (l : List α) (x : α), x ∈ evictF fuel l → x ∈ l := by
  intro fuel
  induction fuel with
  | zero => intro l x h; simpa [evictF] using h
  | succ k ih =>
    intro l x h
    rw [evictF] at h
    split_ifs at h with h1
    · exact h
    · exact (List.dropLast_sublist l).subset (ih l.dropLast x h)

theorem evict_subset {α : Type} (l : List α) (x : α) (h : x ∈ evict l) : x ∈ l :=
  evictF_subset l.length l x h

/-- Every cache entry records the cache-free result for its key. -/
def CacheValid (ranks : Symb × Symb → Option Nat) (cache : Cache) : Prop :=
  ∀ pr ∈ cache, bpe_pure ranks pr.1 = some pr.2

instance (ranks : Symb × Symb → Option Nat) (cache : Cache) :
    Decidable (CacheValid ranks cache) := by
  unfold CacheValid
  infer_instance

theorem cacheValid_nil (ranks : Symb × Symb → Option Nat) : CacheValid ranks [] := by
  intro pr h
  simp at h

theorem bpe_fst {ranks : Symb × Symb → Option Nat} {cache : Cache} (token : List Nat)
    (hv : CacheValid ranks cache) :
    (bpe ranks cache token).map Prod.fst = bpe_pure ranks token := by
  cases hl : dictLookup cache token with
  | some w =>
    have hstep : bpe ranks cache token = some (w, cache) := by rw [bpe, hl]
    rw [hstep]
    exact (hv (token, w) (dictLookup_mem hl)).symm
  | none =>
    have hstep : bpe ranks cache token =
        if token.length = 0 then none
        else if token.length = 1 then some (token, cache)
        else some (bpe_long ranks token, evict (cache ++ [(token, bpe_long ranks token)])) := by
      rw [bpe, hl]
    rw [hstep, bpe_pure]
    split_ifs <;> rfl

theorem bpe_valid {ranks : Symb × Symb → Option Nat} {cache : Cache} {token w : List Nat}
    {cache' : Cache} (hv : CacheValid ranks cache)
    (h : bpe ranks cache token = some (w, cache')) : CacheValid ranks cache' := by
  cases hl : dictLookup cache token with
  | some w0 =>
    rw [bpe, hl] at h
    simp only [Option.some.injEq, Prod.mk.injEq] at h
    rw [← h.2]
    exact hv
  | none =>
    rw [bpe, hl] at h
    split_ifs at h with h0 h1
    · simp only [Option.some.injEq, Prod.mk.injEq] at h
      rw [← h.2]
      exact hv
    · simp only [Option.some.injEq, Prod.mk.injEq] at h
      rw [← h.2]
      intro pr hm
      rcases List.mem_append.mp (evict_subset _ _ hm) with hm1 | hm2
      · exact hv pr hm1
      · rw [List.mem_singleton] at hm2
        rw [hm2, bpe_pure]
        rw [if_neg h0, if_neg h1]

theorem bpe_cache_le {ranks : Symb × Symb → Option Nat} {cache : Cache} {token w : List Nat}
    {cache' : Cache} (hc : cache.length ≤ 1000)
    (h : bpe ranks cache token = some (w, cache')) : cache'.length ≤ 1000 := by
  cases hl : dictLookup cache token with
  | some w0 =>
    rw [bpe, hl] at h
    simp only [Option.some.injEq, Prod.mk.injEq] at h
    rw [← h.2]
    exact hc
  | none =>
    rw [bpe, hl] at h
    split_ifs at h with h0 h1
    · simp only [Option.some.injEq, Prod.mk.injEq] at h
      rw [← h.2]
      exact hc
    · simp only [Option.some.injEq, Prod.mk.injEq] at h
      rw [← h.2]
      exact evict_le _

/-! ## Cache-free encode (what `encode` computes regardless of cache state) -/

/-- One chunk's ids, computed without the cache. -/
def chunkIds (e : Encoder) (ch : List Nat) : Option (List Nat) :=
  match bpe_pure (bpe_ranks e) (surrogate ch) with
  | none => none
  | some w => omap (dictLookup e.encoder) (splitSpace w)

def encodeChunksP (e : Encoder) : List (List Nat) → Option (List Nat)
  | [] => some []
  | ch :: rest =>
    match chunkIds e ch, encodeChunksP e rest with
    | some ids, some ids2 => some (ids ++ ids2)
    | _, _ => none

/-- One separator-free fragment's ids, computed without the cache. -/
def encFragP (e : Encoder) (K : Classifier) (part : List Nat) : Option (List Nat) :=
  encodeChunksP e (findAll K part)

/-- `Encoder.encode` computed without the cache. -/
def encodeP (e : Encoder) (K : Classifier) (text : List Nat) : Option (List Nat) :=
  match splitSep text with
  | [] => some []
  | p :: ps =>
    match dictLookup e.encoder sepSym with
    | none => none
    | some mid =>
      match encFragP e K p, omap (encFragP e K) ps with
      | some ids1, some idss => some (ids1 ++ (idss.map (mid :: ·)).flatten)
      | _, _ => none

theorem encodeChunks_pure (e : Encoder) :
    ∀ (chunks : List (List Nat)) (cache : Cache), CacheValid (bpe_ranks e) cache →
      ((encodeChunks e chunks cache).map Prod.fst = encodeChunksP e chunks) ∧
      (∀ ids c', encodeChunks e chunks cache = some (ids, c') →
        CacheValid (bpe_ranks e) c' ∧ (cache.length ≤ 1000 → c'.length ≤ 1000)) := by
  intro chunks
  induction chunks with
  | nil =>
    intro cache hv
    refine ⟨rfl, fun ids c' h => ?_⟩
    simp only [encodeChunks, Option.some.injEq, Prod.mk.injEq] at h
    rw [← h.2]
    exact ⟨hv, fun hl => hl⟩
  | cons ch rest ih =>
    intro cache hv
    cases hb : bpe (bpe_ranks e) cache (surrogate ch) with
    | none =>
      have hp : bpe_pure (bpe_ranks e) (surrogate ch) = none := by
        rw [← bpe_fst (surrogate ch) hv, hb]
        rfl
      constructor
      · rw [encodeChunks, hb, encodeChunksP, chunkIds, hp]
        rfl
      · intro ids c' h
        rw [encodeChunks, hb] at h
        cases h
    | some wc =>
      obtain ⟨w, c1⟩ := wc
      have hp : bpe_pure (bpe_ranks e) (surrogate ch) = some w := by
        rw [← bpe_fst (surrogate ch) hv, hb]
        rfl
      have hv1 : CacheValid (bpe_ranks e) c1 := bpe_valid hv hb
      have hstep : encodeChunks e (ch :: rest) cache =
          match omap (dictLookup e.encoder) (splitSpace w) with
          | none => none
          | some ids =>
            match encodeChunks e rest c1 with
            | none => none
            | some (ids2, c2) => some (ids ++ ids2, c2) := by
        rw [encodeChunks, hb]
      have hpstep : encodeChunksP e (ch :: rest) =
          match omap (dictLookup e.encoder) (splitSpace w), encodeChunksP e rest with
          | some ids, some ids2 => some (ids ++ ids2)
          | _, _ => none := by
        rw [encodeChunksP, chunkIds, hp]
      obtain ⟨ihf, ihv⟩ := ih c1 hv1
      cases ho : omap (dictLookup e.encoder) (splitSpace w) with
      | none =>
        constructor
        · rw [hstep, hpstep, ho]
          cases encodeChunksP e rest <;> rfl
        · intro ids c' h
          rw [hstep, ho] at h
          cases h
      | some ids =>
        constructor
        · rw [hstep, hpstep, ho, ← ihf]
          cases encodeChunks e rest c1 with
          | none => rfl
          | some p2 => obtain ⟨ids2, c2⟩ := p2; rfl
        · intro ids0 c' h
          rw [hstep, ho] at h
          cases hr : encodeChunks e rest c1 with
          | none => rw [hr] at h; cases h
          | some p2 =>
            obtain ⟨ids2, c2⟩ := p2
            rw [hr] at h
            simp only [Option.some.injEq, Prod.mk.injEq] at h
            obtain ⟨hval, hlen⟩ := ihv ids2 c2 hr
            rw [← h.2]
            exact ⟨hval, fun hl => hlen (bpe_cache_le hl hb)⟩


theorem encodeRest_pure (e : Encoder) (K : Classifier) (mid : Nat) :
    ∀ (ps : List (List Nat)) (cache : Cache), CacheValid (bpe_ranks e) cache →
      ((encodeRest e K mid ps cache).map Prod.fst =
        (omap (encFragP e K) ps).map (fun idss => (idss.map (mid :: ·)).flatten)) ∧
      (∀ ids c', encodeRest e K mid ps cache = some (ids, c') →
        CacheValid (bpe_ranks e) c' ∧ (cache.length ≤ 1000 → c'.length ≤ 1000)) := by
  intro ps
  induction ps with
  | nil =>
    intro cache hv
    refine ⟨rfl, fun ids c' h => ?_⟩
    simp only [encodeRest, Option.some.injEq, Prod.mk.injEq] at h
    rw [← h.2]
    exact ⟨hv, fun hl => hl⟩
  | cons p ps ih =>
    intro cache hv
    obtain ⟨hcf, hcv⟩ := encodeChunks_pure e (findAll K p) cache hv
    cases hc : encodeChunks e (findAll K p) cache with
    | none =>
      have hfp : encFragP e K p = none := by
        rw [encFragP, ← hcf, hc]
        rfl
      constructor
      · rw [encodeRest, hc, omap, hfp]
        rfl
      · intro ids c' h
        rw [encodeRest, hc] at h
        cases h
    | some pc =>
      obtain ⟨ids1, c1⟩ := pc
      have hfp : encFragP e K p = some ids1 := by
        rw [encFragP, ← hcf, hc]
        rfl
      obtain ⟨hv1, hlen1⟩ := hcv ids1 c1 hc
      obtain ⟨ihf, ihv⟩ := ih c1 hv1
      have hstep : encodeRest e K mid (p :: ps) cache =
          match encodeRest e K mid ps c1 with
          | none => none
          | some (ids2, c2) => some (mid :: ids1 ++ ids2, c2) := by
        rw [encodeRest, hc]
      have hpstep : (omap (encFragP e K) (p :: ps)).map
            (fun idss => (idss.map (mid :: ·)).flatten) =
          (omap (encFragP e K) ps).map
            (fun idss2 => mid :: ids1 ++ (idss2.map (mid :: ·)).flatten) := by
        rw [omap, hfp]
        cases omap (encFragP e K) ps <;> rfl
      constructor
      · rw [hstep, hpstep]
        cases hr : encodeRest e K mid ps c1 with
        | none =>
          rw [hr] at ihf
          cases ho2 : omap (encFragP e K) ps with
          | none => rfl
          | some idss =>
            rw [ho2] at ihf
            simp at ihf
        | some p2 =>
          obtain ⟨ids2, c2⟩ := p2
          rw [hr] at ihf
          cases ho2 : omap (encFragP e K) ps with
          | none =>
            rw [ho2] at ihf
            simp at ihf
          | some idss =>
            rw [ho2] at ihf
            simp only [Option.map_some', Option.some.injEq] at ihf
            simp [ihf]
      · intro ids c' h
        rw [hstep] at h
        cases hr : encodeRest e K mid ps c1 with
        | none => rw [hr] at h; cases h
        | some p2 =>
          obtain ⟨ids2, c2⟩ := p2
          rw [hr] at h
          simp only [Option.some.injEq, Prod.mk.injEq] at h
          obtain ⟨hval, hlen⟩ := ihv ids2 c2 hr
          rw [← h.2]
          exact ⟨hval, fun hl => hlen (hlen1 hl)⟩

theorem encode_pure (e : Encoder) (K : Classifier) (cache : Cache) (text : List Nat)
    (hv : CacheValid (bpe_ranks e) cache) :
    ((encode e K cache text).map Prod.fst = encodeP e K text) ∧
    (∀ ids c', encode e K cache text = some (ids, c') →
      CacheValid (bpe_ranks e) c' ∧ (cache.length ≤ 1000 → c'.length ≤ 1000)) := by
  cases hsp : splitSep text with
  | nil =>
    have hstep : encode e K cache text = some ([], cache) := by rw [encode, hsp]
    have hpstep : encodeP e K text = some [] := by rw [encodeP, hsp]
    refine ⟨by rw [hstep, hpstep]; rfl, fun ids c' h => ?_⟩
    rw [hstep] at h
    simp only [Option.some.injEq, Prod.mk.injEq] at h
    rw [← h.2]
    exact ⟨hv, fun hl => hl⟩
  | cons p ps =>
    cases hm : dictLookup e.encoder sepSym with
    | none =>
      have hstep : encode e K cache text = none := by
        rw [encode, hsp]
        simp only [hm]
      have hpstep : encodeP e K text = none := by
        rw [encodeP, hsp]
        simp only [hm]
      exact ⟨by rw [hstep, hpstep]; rfl, fun ids c' h => by rw [hstep] at h; cases h⟩
    | some mid =>
      obtain ⟨hcf, hcv⟩ := encodeChunks_pure e (findAll K p) cache hv
      cases hc : encodeChunks e (findAll K p) cache with
      | none =>
        have hfp : encFragP e K p = none := by
          rw [encFragP, ← hcf, hc]
          rfl
        have hstep : encode e K cache text = none := by
          rw [encode, hsp]
          simp only [hm, hc]
        have hpstep : encodeP e K text = none := by
          rw [encodeP, hsp]
          simp only [hm, hfp]
        exact ⟨by rw [hstep, hpstep]; rfl, fun ids c' h => by rw [hstep] at h; cases h⟩
      | some pc =>
        obtain ⟨ids1, c1⟩ := pc
        have hfp : encFragP e K p = some ids1 := by
          rw [encFragP, ← hcf, hc]
          rfl
        obtain ⟨hv1, hlen1⟩ := hcv ids1 c1 hc
        obtain ⟨ihf, ihv⟩ := encodeRest_pure e K mid ps c1 hv1
        have hstep : encode e K cache text =
            match encodeRest e K mid ps c1 with
            | none => none
            | some (ids2, c2) => some (ids1 ++ ids2, c2) := by
          rw [encode, hsp]
          simp only [hm, hc]
        have hpstep : encodeP e K text =
            match omap (encFragP e K) ps with
            | none => none
            | some idss => some (ids1 ++ (idss.map (mid :: ·)).flatten) := by
          rw [encodeP, hsp]
          simp only [hm, hfp]
          cases omap (encFragP e K) ps <;> rfl
        constructor
        · rw [hstep, hpstep]
          cases hr : encodeRest e K mid ps c1 with
          | none =>
            rw [hr] at ihf
            cases ho2 : omap (encFragP e K) ps with
            | none => rfl
            | some idss =>
              rw [ho2] at ihf
              simp at ihf
          | some p2 =>
            obtain ⟨ids2, c2⟩ := p2
            rw [hr] at ihf
            cases ho2 : omap (encFragP e K) ps with
            | none =>
              rw [ho2] at ihf
              simp at ihf
            | some idss =>
              rw [ho2] at ihf
              simp only [Option.map_some', Option.some.injEq] at ihf
              simp [ihf]
        · intro ids c' h
          rw [hstep] at h
          cases hr : encodeRest e K mid ps c1 with
          | none => rw [hr] at h; cases h
          | some p2 =>
            obtain ⟨ids2, c2⟩ := p2
            rw [hr] at h
            simp only [Option.some.injEq, Prod.mk.injEq] at h
            obtain ⟨hval, hlen⟩ := ihv ids2 c2 hr
            rw [← h.2]
            exact ⟨hval, fun hl => hlen (hlen1 hl)⟩

/-! ## Vocabulary inversion and byte-level inversion -/

/-- Ids are not reused across vocabulary entries (true of the shipped
`encoder.json`; `self.decoder = {v:k ...}` silently drops entries
otherwise). -/
def IdInjective (vocab : List (List Nat × Nat)) : Prop :=
  ∀ pr1 ∈ vocab, ∀ pr2 ∈ vocab, pr1.2 = pr2.2 → pr1.1 = pr2.1

instance (vocab : List (List Nat × Nat)) : Decidable (IdInjective vocab) := by
  unfold IdInjective
  infer_instance

theorem decoder_inv {e : Encoder} (hinj : IdInjective e.encoder) {s : List Nat} {i : Nat}
    (h : (s, i) ∈ e.encoder) : dictLookup (decoderPairs e) i = some s := by
  have hmem : (i, s) ∈ decoderPairs e := by
    rw [decoderPairs]
    exact List.mem_map.mpr ⟨(s, i), h, rfl⟩
  obtain ⟨s', hs'⟩ := Option.isSome_iff_exists.mp (dictLookup_isSome_of_mem hmem)
  have hmem' : (i, s') ∈ decoderPairs e := dictLookup_mem hs'
  rw [decoderPairs] at hmem'
  obtain ⟨⟨s2, i2⟩, h2, heq⟩ := List.mem_map.mp hmem'
  obtain ⟨hi2, hs2⟩ : i2 = i ∧ s2 = s' := by
    constructor
    · exact congrArg Prod.fst heq
    · exact congrArg Prod.snd heq
  rw [hs']
  have : s2 = s := hinj (s2, i2) h2 (s, i) h (by rw [hi2])
  rw [← hs2, this]

theorem omap_vocab_inv {e : Encoder} (hinj : IdInjective e.encoder) :
    ∀ (syms : List (List Nat)) (ids : List Nat),
      omap (dictLookup e.encoder) syms = some ids →
      omap (dictLookup (decoderPairs e)) ids = some syms := by
  intro syms
  induction syms with
  | nil =>
    intro ids h
    simp only [omap, Option.some.injEq] at h
    rw [← h]
    rfl
  | cons s t ih =>
    intro ids h
    rw [omap] at h
    cases hs : dictLookup e.encoder s with
    | none => rw [hs] at h; simp at h
    | some i =>
      rw [hs] at h
      cases ht : omap (dictLookup e.encoder) t with
      | none => rw [ht] at h; simp at h
      | some ids2 =>
        rw [ht] at h
        simp only [Option.some.injEq] at h
        rw [← h, omap, decoder_inv hinj (dictLookup_mem hs), ih ids2 ht]

theorem utf8EncodeChar_lt (c : Nat) (h : ValidChar c) : ∀ b ∈ utf8EncodeChar c, b < 256 := by
  obtain ⟨h1, -⟩ := h
  unfold utf8EncodeChar
  split_ifs with hc1 hc2 hc3 <;> intro b hb <;> simp at hb <;> omega

theorem utf8Str_lt (t : List Nat) (h : ∀ c ∈ t, ValidChar c) : ∀ b ∈ utf8Str t, b < 256 := by
  induction t with
  | nil => simp [utf8Str]
  | cons c rest ih =>
    intro b hb
    rw [show utf8Str (c :: rest) = utf8EncodeChar c ++ utf8Str rest by simp [utf8Str]] at hb
    rcases List.mem_append.mp hb with h1 | h2
    · exact utf8EncodeChar_lt c (h c (List.mem_cons_self _ _)) b h1
    · exact ih (fun x hx => h x (List.mem_cons_of_mem _ hx)) b h2

theorem utf8Str_ne_nil {t : List Nat} (h : t ≠ []) : utf8Str t ≠ [] := by
  cases t with
  | nil => exact absurd rfl h
  | cons c rest =>
    rw [show utf8Str (c :: rest) = utf8EncodeChar c ++ utf8Str rest by simp [utf8Str]]
    intro hnil
    exact utf8EncodeChar_ne_nil c (List.append_eq_nil.mp hnil).1

theorem utf8Str_flatten : ∀ ls : List (List Nat), utf8Str ls.flatten = (ls.map utf8Str).flatten
  | [] => rfl
  | l :: rest => by
    rw [List.flatten_cons, utf8Str_append, utf8Str_flatten rest, List.map_cons,
      List.flatten_cons]

theorem omap_byteDec_surr :
    ∀ bytes : List Nat, (∀ b ∈ bytes, b < 256) →
      omap byte_decoder (bytes.map byte_encoder) = some bytes := by
  intro bytes
  induction bytes with
  | nil => intro _; rfl
  | cons b rest ih =>
    intro h
    rw [List.map_cons, omap,
      byte_roundtrip_aux ⟨b, h b (List.mem_cons_self _ _)⟩,
      ih (fun x hx => h x (List.mem_cons_of_mem _ hx))]

theorem flatten_map_singleton : ∀ l : List Nat, (l.map (fun c => [c])).flatten = l
  | [] => rfl
  | c :: rest => by
    rw [List.map_cons, List.flatten_cons, flatten_map_singleton rest]
    rfl

/-! ## Shape of a merged token -/

theorem bpe_pure_syms (ranks : Symb × Symb → Option Nat) (tok : List Nat) (hne : tok ≠ []) :
    ∃ syms : List Symb, bpe_pure ranks tok = some (joinSpace syms) ∧
      syms.flatten = tok ∧ syms ≠ [] ∧ ∀ s ∈ syms, s ≠ [] := by
  by_cases h1 : tok.length = 1
  · refine ⟨[tok], ?_, by simp, by simp, by simpa using hne⟩
    rw [bpe_pure, if_neg (by simp [h1]), if_pos h1, joinSpace]
  · have h0 : tok.length ≠ 0 := by
      intro h
      exact hne (List.eq_nil_of_length_eq_zero h)
    refine ⟨bpeLoopF ranks tok.length (tok.map (fun c => [c])), ?_, ?_, ?_, ?_⟩
    · rw [bpe_pure, if_neg h0, if_neg h1]
      rfl
    · obtain ⟨hf, -⟩ := bpeLoopF_inv ranks tok.length (tok.map (fun c => [c])) (by simp)
      rw [hf, flatten_map_singleton]
    · intro hnil
      obtain ⟨hf, -⟩ := bpeLoopF_inv ranks tok.length (tok.map (fun c => [c])) (by simp)
      rw [hnil] at hf
      exact hne (by rw [← flatten_map_singleton tok, ← hf]; rfl)
    · obtain ⟨-, hn⟩ := bpeLoopF_inv ranks tok.length (tok.map (fun c => [c])) (by simp)
      exact hn (by intro x hx; obtain ⟨c, -, hc⟩ := List.mem_map.mp hx; rw [← hc]; simp)

/-! ## Chunk- and fragment-level round trips -/

theorem surrogate_ne_nil {ch : List Nat} (h : ch ≠ []) : surrogate ch ≠ [] := by
  rw [surrogate]
  intro hnil
  exact utf8Str_ne_nil h (List.map_eq_nil_iff.mp hnil)

theorem surrogate_flatten : ∀ ls : List (List Nat), (ls.map surrogate).flatten = surrogate ls.flatten
  | [] => rfl
  | l :: rest => by
    rw [List.map_cons, List.flatten_cons, surrogate_flatten rest]
    simp only [surrogate]
    rw [show (l :: rest).flatten = l ++ rest.flatten from rfl, utf8Str_append, List.map_append]

theorem chunk_inv (e : Encoder) (hinj : IdInjective e.encoder) (ch : List Nat)
    (hne : ch ≠ []) (hval : ∀ c ∈ ch, ValidChar c)
    (hcov : ∀ s ∈ splitSpace ((bpe_pure (bpe_ranks e) (surrogate ch)).getD []),
      (dictLookup e.encoder s).isSome) :
    ∃ ids syms, chunkIds e ch = some ids ∧
      omap (dictLookup (decoderPairs e)) ids = some syms ∧
      syms.flatten = surrogate ch := by
  obtain ⟨syms0, hbpe, hflat, hne0, hnn⟩ :=
    bpe_pure_syms (bpe_ranks e) (surrogate ch) (surrogate_ne_nil hne)
  have h32 : ∀ s ∈ syms0, ∀ c ∈ s, c ≠ 32 := by
    intro s hs c hc
    have hcin : c ∈ surrogate ch := by
      rw [← hflat]
      exact List.mem_flatten.mpr ⟨s, hs, hc⟩
    rw [surrogate] at hcin
    obtain ⟨b, hb, hbc⟩ := List.mem_map.mp hcin
    rw [← hbc]
    exact byte_encoder_ne_32 ⟨b, utf8Str_lt ch hval b hb⟩
  have hsplit : splitSpace (joinSpace syms0) = syms0 := splitSpace_joinSpace syms0 hne0 h32
  have hcov2 : ∀ s ∈ syms0, (dictLookup e.encoder s).isSome := by
    intro s hs
    apply hcov
    rw [hbpe]
    simpa [hsplit] using hs
  obtain ⟨ids, hids⟩ := omap_isSome_of_forall hcov2
  refine ⟨ids, syms0, ?_, omap_vocab_inv hinj syms0 ids hids, hflat⟩
  rw [chunkIds, hbpe]
  simpa [hsplit] using hids

theorem chunks_inv (e : Encoder) (hinj : IdInjective e.encoder) :
    ∀ chunks : List (List Nat),
      (∀ ch ∈ chunks, ch ≠ []) →
      (∀ ch ∈ chunks, ∀ c ∈ ch, ValidChar c) →
      (∀ ch ∈ chunks, ∀ s ∈ splitSpace ((bpe_pure (bpe_ranks e) (surrogate ch)).getD []),
        (dictLookup e.encoder s).isSome) →
      ∃ ids syms, encodeChunksP e chunks = some ids ∧
        omap (dictLookup (decoderPairs e)) ids = some syms ∧
        syms.flatten = (chunks.map surrogate).flatten := by
  intro chunks
  induction chunks with
  | nil => intro _ _ _; exact ⟨[], [], rfl, rfl, rfl⟩
  | cons ch rest ih =>
    intro hne hval hcov
    obtain ⟨ids1, syms1, hc1, hd1, hf1⟩ := chunk_inv e hinj ch
      (hne ch (List.mem_cons_self _ _)) (hval ch (List.mem_cons_self _ _))
      (hcov ch (List.mem_cons_self _ _))
    obtain ⟨ids2, syms2, hc2, hd2, hf2⟩ := ih
      (fun a ha => hne a (List.mem_cons_of_mem _ ha))
      (fun a ha => hval a (List.mem_cons_of_mem _ ha))
      (fun a ha => hcov a (List.mem_cons_of_mem _ ha))
    refine ⟨ids1 ++ ids2, syms1 ++ syms2, ?_, ?_, ?_⟩
    · rw [encodeChunksP, hc1, hc2]
    · rw [omap_append, hd1, hd2]
    · rw [List.flatten_append, hf1, hf2, List.map_cons, List.flatten_cons]

theorem frag_inv (e : Encoder) (hinj : IdInjective e.encoder) (K : Classifier) (p : List Nat)
    (hval : ∀ c ∈ p, ValidChar c)
    (hcov : ∀ ch ∈ findAll K p,
      ∀ s ∈ splitSpace ((bpe_pure (bpe_ranks e) (surrogate ch)).getD []),
      (dictLookup e.encoder s).isSome) :
    ∃ ids syms, encFragP e K p = some ids ∧
      omap (dictLookup (decoderPairs e)) ids = some syms ∧
      syms.flatten = surrogate p := by
  obtain ⟨ids, syms, h1, h2, h3⟩ := chunks_inv e hinj (findAll K p)
    (findAll_nonempty K p)
    (by
      intro ch hch c hc
      apply hval
      rw [← findAll_flatten K p]
      exact List.mem_flatten.mpr ⟨ch, hch, hc⟩)
    hcov
  refine ⟨ids, syms, h1, h2, ?_⟩
  rw [h3, surrogate_flatten, findAll_flatten]

/-! ## Splitting on the separator -/

/-- Joining fragments back with the separator (the decoding counterpart of
`text.split('<|endoftext|>')`). -/
def joinSep : List (List Nat) → List Nat
  | [] => []
  | [p] => p
  | p :: rest => p ++ sepSym ++ joinSep rest

theorem firstOcc_spec {sep : List Nat} :
    ∀ {s : List Nat} {i : Nat}, firstOcc sep s = some i →
      (s.drop i).take sep.length = sep ∧ i + sep.length ≤ s.length := by
  intro s
  induction s with
  | nil => intro i h; simp [firstOcc] at h
  | cons c t ih =>
    intro i h
    rw [firstOcc] at h
    split_ifs at h with h1
    · cases h
      refine ⟨by simpa using h1, ?_⟩
      have := congrArg List.length h1
      simp only [List.length_take] at this
      simp only [Nat.zero_add]
      omega
    · cases ho : firstOcc sep t with
      | none => rw [ho] at h; simp at h
      | some j =>
        rw [ho] at h
        simp only [Option.map_some', Option.some.injEq] at h
        obtain ⟨hs, hl⟩ := ih ho
        rw [← h]
        constructor
        · simpa using hs
        · simp only [List.length_cons]
          omega

theorem firstOcc_reconstruct {sep s : List Nat} {i : Nat} (h : firstOcc sep s = some i) :
    s = s.take i ++ sep ++ s.drop (i + sep.length) := by
  obtain ⟨hs, hl⟩ := firstOcc_spec h
  conv_lhs => rw [← List.take_append_drop i s]
  rw [List.append_assoc]
  congr 1
  conv_lhs => rw [← List.take_append_drop sep.length (s.drop i)]
  rw [hs, List.drop_drop]

theorem splitSepF_ne_nil (sep : List Nat) : ∀ (fuel : Nat) (s : List Nat),
    splitSepF sep fuel s ≠ [] := by
  intro fuel s
  cases fuel with
  | zero => simp [splitSepF]
  | succ k =>
    rw [splitSepF]
    cases firstOcc sep s <;> simp

theorem splitSepF_joinSep :
    ∀ (fuel : Nat) (s : List Nat), s.length ≤ fuel → joinSep (splitSepF sepSym fuel s) = s := by
  intro fuel
  induction fuel with
  | zero => intro s h; rfl
  | succ k ih =>
    intro s h
    cases ho : firstOcc sepSym s with
    | none =>
      have hstep : splitSepF sepSym (k + 1) s = [s] := by rw [splitSepF, ho]
      rw [hstep]
      rfl
    | some i =>
      have hstep : splitSepF sepSym (k + 1) s =
          s.take i :: splitSepF sepSym k (s.drop (i + sepSym.length)) := by
        rw [splitSepF, ho]
      rw [hstep]
      obtain ⟨-, hl⟩ := firstOcc_spec ho
      have hsep13 : sepSym.length = 13 := rfl
      have hdlen : (s.drop (i + sepSym.length)).length ≤ k := by
        simp only [List.length_drop]
        omega
      cases hsp : splitSepF sepSym k (s.drop (i + sepSym.length)) with
      | nil => exact absurd hsp (splitSepF_ne_nil sepSym k _)
      | cons q qs =>
        rw [show joinSep (List.take i s :: q :: qs)
            = List.take i s ++ sepSym ++ joinSep (q :: qs) from rfl]
        rw [← hsp, ih _ hdlen]
        exact (firstOcc_reconstruct ho).symm

theorem splitSep_joinSep (s : List Nat) : joinSep (splitSep s) = s :=
  splitSepF_joinSep s.length s (le_refl _)

/-! ## Separator-free strings and splitting around a literal separator -/

/-- The string contains no occurrence of `<|endoftext|>`. -/
def SepFree (t : List Nat) : Prop := firstOcc sepSym t = none

instance (t : List Nat) : Decidable (SepFree t) := by unfold SepFree; infer_instance

/-- `<|endoftext|>` has no nontrivial border (no proper prefix equal to a
proper suffix), so an occurrence cannot straddle a fragment boundary. -/
theorem sepSym_borderless :
    ∀ k, 1 ≤ k → k < 13 → sepSym.drop k ≠ sepSym.take (13 - k) := by decide

theorem firstOcc_of_take {s : List Nat} (hs : s ≠ []) (h : s.take sepSym.length = sepSym) :
    firstOcc sepSym s = some 0 := by
  cases s with
  | nil => exact absurd rfl hs
  | cons c t => rw [firstOcc, if_pos h]

theorem firstOcc_append_sep :
    ∀ (a b : List Nat), SepFree a → firstOcc sepSym (a ++ sepSym ++ b) = some a.length := by
  intro a
  induction a with
  | nil =>
    intro b _
    rw [List.nil_append]
    rw [firstOcc_of_take (by simp [sepSym]) (by rw [List.take_append_of_le_length (le_refl _),
      List.take_of_length_le (le_refl _)])]
    rfl
  | cons c a' ih =>
    intro b hfree
    rw [SepFree, firstOcc] at hfree
    split_ifs at hfree with h1
    have hfree' : SepFree a' := by
      rw [SepFree]
      cases ho : firstOcc sepSym a' with
      | none => rfl
      | some j => rw [ho] at hfree; simp at hfree
    have hnot : ¬((c :: (a' ++ sepSym ++ b)).take sepSym.length = sepSym) := by
      intro hcontra
      rw [show c :: (a' ++ sepSym ++ b) = (c :: a') ++ (sepSym ++ b) by simp] at hcontra
      by_cases hlen : sepSym.length ≤ (c :: a').length
      · rw [List.take_append_of_le_length hlen] at hcontra
        exact h1 hcontra
      · push_neg at hlen
        have hsl : sepSym.length = 13 := rfl
        have hk1 : (c :: a').length ≤ sepSym.length := by omega
        rw [List.take_append_eq_append_take, List.take_of_length_le hk1,
          List.take_append_of_le_length
            (show sepSym.length - (c :: a').length ≤ sepSym.length by omega)] at hcontra
      
        have hdrop := congrArg (List.drop (c :: a').length) hcontra
        rw [List.drop_left] at hdrop
        exact sepSym_borderless (c :: a').length (by simp) (by omega) (hsl ▸ hdrop.symm)
    rw [show (c :: a') ++ sepSym ++ b = c :: (a' ++ sepSym ++ b) by simp]
    rw [firstOcc, if_neg hnot, ih b hfree']
    rfl

theorem splitSepF_sepFree (fuel : Nat) (b : List Nat) (h : SepFree b) :
    splitSepF sepSym fuel b = [b] := by
  cases fuel with
  | zero => rfl
  | succ k => rw [splitSepF, h]

theorem splitSep_sepFree (b : List Nat) (h : SepFree b) : splitSep b = [b] :=
  splitSepF_sepFree b.length b h

theorem splitSep_two {a b : List Nat} (ha : SepFree a) (hb : SepFree b) :
    splitSep (a ++ sepSym ++ b) = [a, b] := by
  rw [splitSep]
  have hlen : (a ++ sepSym ++ b).length = a.length + 13 + b.length := by
    simp [sepSym]
    omega
  cases hfl : (a ++ sepSym ++ b).length with
  | zero => omega
  | succ m =>
    have htake : (a ++ sepSym ++ b).take a.length = a := by
      rw [List.append_assoc, List.take_left]
    have hdrop : (a ++ sepSym ++ b).drop (a.length + sepSym.length) = b := by
      rw [List.append_assoc, ← List.drop_drop, List.drop_left, List.drop_left]
    have hstep : splitSepF sepSym (m + 1) (a ++ sepSym ++ b) =
        (a ++ sepSym ++ b).take a.length
          :: splitSepF sepSym m ((a ++ sepSym ++ b).drop (a.length + sepSym.length)) := by
      rw [splitSepF, firstOcc_append_sep a b ha]
    rw [hstep, htake, hdrop, splitSepF_sepFree m b hb]

/-! ## Assembling the round trip -/

theorem utf8Str_sepSym : utf8Str sepSym = sepSym := by decide

theorem omap_byteDec_sepSym : omap byte_decoder sepSym = some sepSym := by decide

theorem mem_joinSep : ∀ (parts : List (List Nat)) (p : List Nat) (c : Nat),
    p ∈ parts → c ∈ p → c ∈ joinSep parts
  | [], p, c, hp, _ => by simp at hp
  | [q], p, c, hp, hc => by
    rcases List.mem_cons.mp hp with h1 | h2
    · subst h1; simpa [joinSep] using hc
    · simp at h2
  | q :: q2 :: rest, p, c, hp, hc => by
    rw [show joinSep (q :: q2 :: rest) = q ++ sepSym ++ joinSep (q2 :: rest) from rfl]
    rcases List.mem_cons.mp hp with h1 | h2
    · subst h1
      simp [hc]
    · have := mem_joinSep (q2 :: rest) p c h2 hc
      simp [this]

theorem utf8Str_joinSep :
    ∀ (p : List Nat) (ps : List (List Nat)),
      utf8Str (joinSep (p :: ps)) =
        utf8Str p ++ (ps.map (fun q => sepSym ++ utf8Str q)).flatten := by
  intro p ps
  induction ps generalizing p with
  | nil => simp [joinSep]
  | cons q qs ih =>
    rw [show joinSep (p :: q :: qs) = p ++ sepSym ++ joinSep (q :: qs) from rfl,
      utf8Str_append, utf8Str_append, utf8Str_sepSym, ih q, List.map_cons,
      List.flatten_cons]
    simp [List.append_assoc]

theorem byteDec_surrogate {p : List Nat} (hval : ∀ c ∈ p, ValidChar c) :
    omap byte_decoder (surrogate p) = some (utf8Str p) := by
  rw [surrogate]
  exact omap_byteDec_surr (utf8Str p) (utf8Str_lt p hval)

theorem frag_full (e : Encoder) (hinj : IdInjective e.encoder) (K : Classifier) (p : List Nat)
    (hval : ∀ c ∈ p, ValidChar c)
    (hcov : ∀ ch ∈ findAll K p,
      ∀ s ∈ splitSpace ((bpe_pure (bpe_ranks e) (surrogate ch)).getD []),
      (dictLookup e.encoder s).isSome) :
    ∃ ids, encFragP e K p = some ids ∧
      ∃ syms, omap (dictLookup (decoderPairs e)) ids = some syms ∧
        omap byte_decoder syms.flatten = some (utf8Str p) := by
  obtain ⟨ids, syms, h1, h2, h3⟩ := frag_inv e hinj K p hval hcov
  exact ⟨ids, h1, syms, h2, by rw [h3, byteDec_surrogate hval]⟩

theorem parts_full (e : Encoder) (hinj : IdInjective e.encoder) (K : Classifier) (mid : Nat)
    (hmid : dictLookup (decoderPairs e) mid = some sepSym) :
    ∀ ps : List (List Nat),
      (∀ p ∈ ps, ∀ c ∈ p, ValidChar c) →
      (∀ p ∈ ps, ∀ ch ∈ findAll K p,
        ∀ s ∈ splitSpace ((bpe_pure (bpe_ranks e) (surrogate ch)).getD []),
        (dictLookup e.encoder s).isSome) →
      ∃ idss, omap (encFragP e K) ps = some idss ∧
        ∃ syms2, omap (dictLookup (decoderPairs e)) ((idss.map (mid :: ·)).flatten)
            = some syms2 ∧
          omap byte_decoder syms2.flatten
            = some ((ps.map (fun q => sepSym ++ utf8Str q)).flatten) := by
  intro ps
  induction ps with
  | nil => intro _ _; exact ⟨[], rfl, [], rfl, rfl⟩
  | cons q qs ih =>
    intro hval hcov
    obtain ⟨idsq, hq1, symsq, hq2, hq3⟩ := frag_full e hinj K q
      (hval q (List.mem_cons_self _ _)) (hcov q (List.mem_cons_self _ _))
    obtain ⟨idss, h1, syms2, h2, h3⟩ := ih
      (fun a ha => hval a (List.mem_cons_of_mem _ ha))
      (fun a ha => hcov a (List.mem_cons_of_mem _ ha))
    refine ⟨idsq :: idss, by rw [omap, hq1, h1], ?_⟩
    have hdec : omap (dictLookup (decoderPairs e))
        (((idsq :: idss).map (mid :: ·)).flatten) = some (sepSym :: (symsq ++ syms2)) := by
      rw [List.map_cons, List.flatten_cons]
      rw [show (mid :: idsq) ++ (idss.map (mid :: ·)).flatten
          = mid :: (idsq ++ (idss.map (mid :: ·)).flatten) from rfl]
      rw [omap, hmid, omap_append, hq2, h2]
    refine ⟨sepSym :: (symsq ++ syms2), hdec, ?_⟩
    rw [show (sepSym :: (symsq ++ syms2)).flatten
        = sepSym ++ (symsq.flatten ++ syms2.flatten) by simp]
    rw [omap_append, omap_byteDec_sepSym, omap_append, hq3, h3]
    simp

/-- The vocabulary covers every symbol the merge produces on this text. -/
def Covers (e : Encoder) (K : Classifier) (t : List Nat) : Prop :=
  ∀ p ∈ splitSep t, ∀ ch ∈ findAll K p,
    ∀ s ∈ splitSpace ((bpe_pure (bpe_ranks e) (surrogate ch)).getD []),
    (dictLookup e.encoder s).isSome

instance (e : Encoder) (K : Classifier) (t : List Nat) : Decidable (Covers e K t) := by
  unfold Covers
  infer_instance

theorem decode_eq {e : Encoder} {tokens : List Nat} {syms : List (List Nat)} {bytes : List Nat}
    (h1 : omap (dictLookup (decoderPairs e)) tokens = some syms)
    (h2 : omap byte_decoder syms.flatten = some bytes) :
    decode e tokens = utf8Decode bytes := by
  simp only [decode, h1, h2]

theorem encodeP_decode (e : Encoder) (K : Classifier) (t : List Nat)
    (hinj : IdInjective e.encoder)
    (hsep : (dictLookup e.encoder sepSym).isSome)
    (hval : ∀ c ∈ t, ValidChar c)
    (hcov : Covers e K t) :
    ∃ ids, encodeP e K t = some ids ∧ decode e ids = some t := by
  obtain ⟨mid, hmid⟩ := Option.isSome_iff_exists.mp hsep
  have hmid' : dictLookup (decoderPairs e) mid = some sepSym :=
    decoder_inv hinj (dictLookup_mem hmid)
  cases hsp : splitSep t with
  | nil => exact absurd hsp (splitSepF_ne_nil sepSym t.length t)
  | cons p ps =>
    have hjoin : joinSep (p :: ps) = t := by
      rw [← hsp]
      exact splitSep_joinSep t
    have hvalP : ∀ q ∈ p :: ps, ∀ c ∈ q, ValidChar c := by
      intro q hq c hc
      apply hval
      rw [← hjoin]
      exact mem_joinSep (p :: ps) q c hq hc
    have hcovP : ∀ q ∈ p :: ps, ∀ ch ∈ findAll K q,
        ∀ s ∈ splitSpace ((bpe_pure (bpe_ranks e) (surrogate ch)).getD []),
        (dictLookup e.encoder s).isSome := by
      intro q hq
      exact hcov q (hsp ▸ hq)
    obtain ⟨ids1, hf1, syms1, hf2, hf3⟩ := frag_full e hinj K p
      (hvalP p (List.mem_cons_self _ _)) (hcovP p (List.mem_cons_self _ _))
    obtain ⟨idss, hp1, syms2, hp2, hp3⟩ := parts_full e hinj K mid hmid' ps
      (fun a ha => hvalP a (List.mem_cons_of_mem _ ha))
      (fun a ha => hcovP a (List.mem_cons_of_mem _ ha))
    have henc : encodeP e K t = some (ids1 ++ (idss.map (mid :: ·)).flatten) := by
      rw [encodeP, hsp]
      simp only [hmid, hf1, hp1]
    refine ⟨ids1 ++ (idss.map (mid :: ·)).flatten, henc, ?_⟩
    have hdec1 : omap (dictLookup (decoderPairs e)) (ids1 ++ (idss.map (mid :: ·)).flatten)
        = some (syms1 ++ syms2) := by
      rw [omap_append, hf2, hp2]
    have hdec2 : omap byte_decoder (syms1 ++ syms2).flatten
        = some (utf8Str p ++ (ps.map (fun q => sepSym ++ utf8Str q)).flatten) := by
      rw [List.flatten_append, omap_append, hf3, hp3]
    rw [decode_eq hdec1 hdec2, ← utf8Str_joinSep p ps, hjoin]
    exact utf8Decode_utf8Str t hval

/-! ## Claim theorems -/

/-- A small concrete vocabulary for witnesses: `a`, `Ġ` (the surrogate of
the space byte, code point 288), `b`, and the separator. -/
def tinyVocab : List (List Nat × Nat) := [([97], 0), ([288], 1), ([98], 2), (sepSym, 3)]

def tinyE : Encoder := ⟨tinyVocab, []⟩

/-- C4: `bytes_to_unicode` is a bijection on all 256 byte values: it is
defined on every byte, and mapping a byte through it and then through its
inverse `byte_decoder` returns the byte. The map is a plain constant of
the module (Python caches it with `lru_cache`), so it is identical across
all `Encoder` instances by construction. -/
theorem bytes_to_unicode_bijective :
    (∀ b : Fin 256, (dictLookup byteEncPairs b.val).isSome) ∧
    (∀ b : Fin 256, byte_decoder (byte_encoder b.val) = some b.val) := by
  constructor
  · simp only [byteEncPairs_eq]
    decide
  · exact byte_roundtrip_aux

/-- C6: constructing an `Encoder` from a vocabulary without the key
`<|endoftext|>` fails at construction time, for every vocabulary and merge
list; a vocabulary containing the key constructs successfully, holding the
given tables. -/
theorem mkEncoder_sep_required (vocab : List (List Nat × Nat)) (merges : List (Symb × Symb)) :
    (mkEncoder vocab merges = none ↔ dictLookup vocab sepSym = none) ∧
    (∀ e, mkEncoder vocab merges = some e → e.encoder = vocab ∧ e.bpe_merges = merges) := by
  constructor
  · rw [mkEncoder]
    split_ifs with h
    · simp only [Option.some_ne_none, false_iff]
      intro hn
      rw [hn] at h
      simp at h
    · rw [Option.not_isSome_iff_eq_none] at h
      simp [h]
  · intro e h
    rw [mkEncoder] at h
    split_ifs at h with h1
    simp only [Option.some.injEq] at h
    rw [← h]
    exact ⟨rfl, rfl⟩

theorem mkEncoder_sep_required_witness :
    mkEncoder [([97], 0)] [] = none ∧ tinyE.encoder = tinyVocab :=
  ⟨(mkEncoder_sep_required [([97], 0)] []).1.mpr (by decide),
   ((mkEncoder_sep_required tinyVocab []).2 tinyE rfl).1⟩

/-- C7: `Encoder.decode` fails (raises `KeyError` on `self.decoder[token]`,
modelled as `none`) whenever any requested id is absent from the
vocabulary's inverse; no placeholder or partial result is produced. -/
theorem decode_unknown_id (e : Encoder) (tokens : List Nat) (t : Nat)
    (hmem : t ∈ tokens) (hnone : dictLookup (decoderPairs e) t = none) :
    decode e tokens = none := by
  rw [decode, omap_eq_none_of_mem hmem hnone]

theorem decode_unknown_id_witness : decode tinyE [999999] = none :=
  decode_unknown_id tinyE [999999] 999999 (by decide) (by decide)

/-- C8: encoding the empty string yields the empty id sequence (and leaves
the cache empty), and decoding the empty sequence yields the empty string,
for every validly constructed Encoder (one whose vocabulary contains the
separator, as the constructor guarantees). -/
theorem encode_decode_empty (e : Encoder) (K : Classifier)
    (hsep : (dictLookup e.encoder sepSym).isSome) :
    (encode e K [] []).map Prod.fst = some [] ∧ decode e [] = some [] := by
  obtain ⟨mid, hmid⟩ := Option.isSome_iff_exists.mp hsep
  constructor
  · have h1 : encode e K [] [] =
        match dictLookup e.encoder sepSym with
        | none => none
        | some _ => some (([] : List Nat), ([] : Cache)) := rfl
    rw [h1, hmid]
    rfl
  · rfl

theorem encode_decode_empty_witness :
    (encode tinyE asciiK [] []).map Prod.fst = some [] ∧ decode tinyE [] = some [] :=
  encode_decode_empty tinyE asciiK (by decide)

/-- C10: the pre-tokenizer's chunks are non-empty and concatenate, in
order, to the input; hence the surrogate token handed to `Encoder.bpe` is
never empty, so `get_pairs`'s `word[0]` (the `none` result of `bpe`,
modelling its IndexError) is never reached from `encode`, under any rank
table and any cache state. -/
theorem pretokenizer_chunks (K : Classifier) (s : List Nat) :
    (findAll K s).flatten = s ∧
    (∀ ch ∈ findAll K s, ch ≠ []) ∧
    (∀ (ranks : Symb × Symb → Option Nat) (cache : Cache),
      ∀ ch ∈ findAll K s, bpe ranks cache (surrogate ch) ≠ none) := by
  refine ⟨findAll_flatten K s, findAll_nonempty K s, ?_⟩
  intro ranks cache ch hch hnone
  have hne : surrogate ch ≠ [] := surrogate_ne_nil (findAll_nonempty K s ch hch)
  rw [bpe] at hnone
  cases hl : dictLookup cache (surrogate ch) with
  | some w => rw [hl] at hnone; cases hnone
  | none =>
    rw [hl] at hnone
    split_ifs at hnone with h0 h1
    exact hne (List.eq_nil_of_length_eq_zero h0)

theorem pretokenizer_chunks_witness :
    bpe (fun _ => none) [] (surrogate [32, 98]) ≠ none :=
  (pretokenizer_chunks asciiK [97, 32, 98]).2.2 (fun _ => none) [] [32, 98] (by decide)

/-- Replaying a sequence of `bpe` calls against the instance cache,
starting from the empty cache of a fresh Encoder. -/
def bpeFold (ranks : Symb × Symb → Option Nat) (tokens : List (List Nat)) : Cache :=
  tokens.foldl
    (fun c t =>
      match bpe ranks c t with
      | some (_, c') => c'
      | none => c)
    []

theorem bpeFold_aux (ranks : Symb × Symb → Option Nat) :
    ∀ (tokens : List (List Nat)) (c : Cache), c.length ≤ 1000 →
      (tokens.foldl
        (fun c t =>
          match bpe ranks c t with
          | some (_, c') => c'
          | none => c)
        c).length ≤ 1000 := by
  intro tokens
  induction tokens with
  | nil => intro c h; exact h
  | cons t ts ih =>
    intro c h
    rw [List.foldl_cons]
    cases hb : bpe ranks c t with
    | none => exact ih c h
    | some pr =>
      obtain ⟨w, c'⟩ := pr
      exact ih c' (bpe_cache_le h hb)

/-- C9: the memo cache is capacity-bounded: any single `bpe` call from a
state within the 1000-entry bound returns a cache within the bound (the
eviction loop runs until it holds), and the invariant is preserved across
every sequence of `bpe` calls from a fresh Encoder's empty cache. -/
theorem cache_capacity_bounded (ranks : Symb × Symb → Option Nat) :
    (∀ (cache : Cache) (token w : List Nat) (cache' : Cache),
      cache.length ≤ 1000 → bpe ranks cache token = some (w, cache') →
      cache'.length ≤ 1000) ∧
    (∀ tokens : List (List Nat), (bpeFold ranks tokens).length ≤ 1000) := by
  constructor
  · intro cache token w cache' hc h
    exact bpe_cache_le hc h
  · intro tokens
    exact bpeFold_aux ranks tokens [] (by simp)

theorem cache_capacity_bounded_witness :
    ([([97, 98], [97, 32, 98])] : Cache).length ≤ 1000 :=
  (cache_capacity_bounded (fun _ => none)).1 [] [97, 98] [97, 32, 98]
    [([97, 98], [97, 32, 98])] (by decide) (by decide)

/-- C5: `Encoder.bpe` is deterministic and cache-transparent: against any
valid cache state (one whose entries record the cache-free results, which
covers every state reachable from the fresh empty cache) a call returns
exactly the cache-free result and preserves validity; consequently
`encode`'s output ids are the same for every such cache state — clearing
or disabling the memo cache never changes the output of `encode`. -/
theorem bpe_cache_transparent :
    (∀ (ranks : Symb × Symb → Option Nat) (cache : Cache) (token : List Nat),
      CacheValid ranks cache →
      (bpe ranks cache token).map Prod.fst = bpe_pure ranks token ∧
      ∀ w c', bpe ranks cache token = some (w, c') → CacheValid ranks c') ∧
    (∀ (e : Encoder) (K : Classifier) (cache : Cache) (text : List Nat),
      CacheValid (bpe_ranks e) cache →
      (encode e K cache text).map Prod.fst = encodeP e K text) := by
  constructor
  · intro ranks cache token hv
    exact ⟨bpe_fst token hv, fun w c' h => bpe_valid hv h⟩
  · intro e K cache text hv
    exact (encode_pure e K cache text hv).1

theorem bpe_cache_transparent_witness :
    (bpe (fun _ => none) [([97, 98], [97, 32, 98])] [97, 98]).map Prod.fst
      = bpe_pure (fun _ => none) [97, 98] :=
  ((bpe_cache_transparent).1 (fun _ => none) [([97, 98], [97, 32, 98])] [97, 98]
    (by decide)).1

/-- C1: round trip. For every text of valid Unicode scalars, against any
Encoder whose vocabulary is id-injective, contains `<|endoftext|>`, and
covers the symbols the merge table produces on this text (the byte-level
coverage assumption), decoding the encoding returns the text exactly. -/
theorem encode_decode_roundtrip (e : Encoder) (K : Classifier) (t : List Nat)
    (hinj : IdInjective e.encoder)
    (hsep : (dictLookup e.encoder sepSym).isSome)
    (hval : ∀ c ∈ t, ValidChar c)
    (hcov : Covers e K t) :
    ∃ ids cache', encode e K [] t = some (ids, cache') ∧ decode e ids = some t := by
  obtain ⟨ids, he, hd⟩ := encodeP_decode e K t hinj hsep hval hcov
  obtain ⟨hf, -⟩ := encode_pure e K [] t (cacheValid_nil _)
  rw [he] at hf
  cases henc : encode e K [] t with
  | none => rw [henc] at hf; simp at hf
  | some pr =>
    obtain ⟨ids0, c'⟩ := pr
    rw [henc] at hf
    simp only [Option.map_some', Option.some.injEq] at hf
    refine ⟨ids, c', ?_, hd⟩
    rw [hf]

theorem encode_decode_roundtrip_witness :
    ∃ ids cache', encode tinyE asciiK [] [97, 32, 98] = some (ids, cache') ∧
      decode tinyE ids = some [97, 32, 98] :=
  encode_decode_roundtrip tinyE asciiK [97, 32, 98] (by decide) (by decide) (by decide)
    (by decide)

/-- For a separator-free text the whole encoding is its single fragment's
encoding. -/
theorem encodeP_sepFree_frag {e : Encoder} {K : Classifier} {a xa : List Nat}
    (ha : SepFree a) (hsid : (dictLookup e.encoder sepSym).isSome)
    (hpa : encodeP e K a = some xa) : encFragP e K a = some xa := by
  obtain ⟨sid, hs⟩ := Option.isSome_iff_exists.mp hsid
  rw [encodeP, splitSep_sepFree a ha] at hpa
  simp only [hs] at hpa
  cases hfa0 : encFragP e K a with
  | none => rw [hfa0] at hpa; simp at hpa
  | some ids1 =>
    rw [hfa0] at hpa
    have h2 : some (ids1 ++ ([] : List (List Nat)).flatten) = some xa := hpa
    simp only [List.flatten_nil, List.append_nil, Option.some.injEq] at h2
    rw [h2]

/-- C2: separator atomicity. Splitting on the literal separator happens
before pre-tokenization and merging, so for separator-free `a` and `b`
whose encodings succeed, `encode (a ++ "<|endoftext|>" ++ b)` is exactly
`encode a ++ [sid] ++ encode b`; and in general the fragments of a text
contribute exactly one interior separator id before every fragment except
the first, and none after the last. -/
theorem encode_separator_atomic :
    (∀ (e : Encoder) (K : Classifier) (a b xa xb : List Nat) (sid : Nat),
      SepFree a → SepFree b →
      dictLookup e.encoder sepSym = some sid →
      (encode e K [] a).map Prod.fst = some xa →
      (encode e K [] b).map Prod.fst = some xb →
      (encode e K [] (a ++ sepSym ++ b)).map Prod.fst = some (xa ++ sid :: xb)) ∧
    (∀ (e : Encoder) (K : Classifier) (t : List Nat) (sid : Nat) (x : List Nat)
        (xs : List (List Nat)),
      dictLookup e.encoder sepSym = some sid →
      omap (encFragP e K) (splitSep t) = some (x :: xs) →
      (encode e K [] t).map Prod.fst = some (x ++ (xs.map (sid :: ·)).flatten)) := by
  constructor
  · intro e K a b xa xb sid ha hb hsid hea heb
    have hpa : encodeP e K a = some xa := by
      rw [← (encode_pure e K [] a (cacheValid_nil _)).1]
      exact hea
    have hpb : encodeP e K b = some xb := by
      rw [← (encode_pure e K [] b (cacheValid_nil _)).1]
      exact heb
    have hfa : encFragP e K a = some xa :=
      encodeP_sepFree_frag ha (by rw [hsid]; rfl) hpa
    have hfb : encFragP e K b = some xb :=
      encodeP_sepFree_frag hb (by rw [hsid]; rfl) hpb
    rw [(encode_pure e K [] (a ++ sepSym ++ b) (cacheValid_nil _)).1]
    rw [encodeP, splitSep_two ha hb]
    simp only [hsid, hfa, omap, hfb]
    simp
  · intro e K t sid x xs hsid ho
    rw [(encode_pure e K [] t (cacheValid_nil _)).1]
    cases hsp : splitSep t with
    | nil => rw [hsp] at ho; simp [omap] at ho
    | cons p ps =>
      rw [hsp] at ho
      rw [omap] at ho
      cases hfp : encFragP e K p with
      | none => rw [hfp] at ho; simp at ho
      | some ids1 =>
        rw [hfp] at ho
        cases hos : omap (encFragP e K) ps with
        | none => rw [hos] at ho; simp at ho
        | some idss =>
          rw [hos] at ho
          simp only [Option.some.injEq, List.cons.injEq] at ho
          rw [encodeP, hsp]
          simp only [hsid, hfp, hos]
          rw [ho.1, ho.2]

theorem encode_separator_atomic_witness :
    (encode tinyE asciiK [] ([97] ++ sepSym ++ [98])).map Prod.fst = some ([0] ++ 3 :: [2]) :=
  encode_separator_atomic.1 tinyE asciiK [97] [98] [0] [2] 3 (by decide) (by decide)
    (by decide) (by decide) (by decide)

/-! ## C3: the merge loop against its specification -/

/-- Modelled from the spec (§4.4): "find the pair with the lowest rank
among all currently-adjacent pairs (pairs absent from the rank table are
treated as infinite rank)" — recursively, the ranked pair of minimal rank,
the earlier pair winning ties (ranks are unique in a real table, so the
tie case never arises there). -/
def specBest (ranks : Symb × Symb → Option Nat) :
    List (Symb × Symb) → Option ((Symb × Symb) × Nat)
  | [] => none
  | p :: rest =>
    match ranks p, specBest ranks rest with
    | none, b => b
    | some r, none => some (p, r)
    | some r, some (q, rq) => if r ≤ rq then some (p, r) else some (q, rq)

/-- Modelled from the spec (§4.4): the merge loop — stop when no adjacent
pair is ranked; otherwise merge every non-overlapping occurrence of the
best pair left to right; stop at a single symbol. -/
def bpeSpecLoopF (ranks : Symb × Symb → Option Nat) : Nat → List Symb → List Symb
  | 0, word => word
  | fuel + 1, word =>
    match specBest ranks (get_pairs word) with
    | none => word
    | some (p, _) =>
      if (mergePairs p.1 p.2 word).length = 1 then mergePairs p.1 p.2 word
      else bpeSpecLoopF ranks fuel (mergePairs p.1 p.2 word)

/-- Modelled from the spec (§4.4): `merge(chunk)` — single-character
chunks short-circuit; an empty chunk is not expected (kept failing, as in
the source). -/
def bpeSpec (ranks : Symb × Symb → Option Nat) (token : List Nat) : Option (List Nat) :=
  if token.length = 0 then none
  else if token.length = 1 then some token
  else some (joinSpace (bpeSpecLoopF ranks token.length (token.map (fun c => [c]))))

theorem bestPair_foldl_aux (ranks : Symb × Symb → Option Nat) :
    ∀ (t : List (Symb × Symb)) (p : Symb × Symb) (r : Nat),
      t.foldl
        (fun acc p =>
          match ranks p with
          | none => acc
          | some r =>
            match acc with
            | none => some (p, r)
            | some (_, rq) => if r < rq then some (p, r) else acc)
        (some (p, r)) =
      match specBest ranks t with
      | none => some (p, r)
      | some (q, rq) => if rq < r then some (q, rq) else some (p, r) := by
  intro t
  induction t with
  | nil => intro p r; rfl
  | cons q0 t ih =>
    intro p r
    rw [List.foldl_cons, specBest]
    cases hq0 : ranks q0 with
    | none =>
      simp only [hq0]
      rw [ih p r]
    | some r0 =>
      simp only [hq0]
      by_cases hr0 : r0 < r
      · rw [if_pos hr0, ih q0 r0]
        cases hsb : specBest ranks t with
        | none => simp [hr0]
        | some b =>
          obtain ⟨q, rq⟩ := b
          by_cases hrq : rq < r0
          · simp [hrq, show ¬(r0 ≤ rq) by omega, show rq < r by omega]
          · simp [hrq, show r0 ≤ rq by omega, hr0]
      · rw [if_neg hr0, ih p r]
        cases hsb : specBest ranks t with
        | none => simp [hr0]
        | some b =>
          obtain ⟨q, rq⟩ := b
          by_cases hrq : rq < r
          · simp [hrq, show ¬(r0 ≤ rq) by omega]
          · by_cases hle : r0 ≤ rq
            · simp [hle, hrq, hr0]
            · simp [hle, hrq]

theorem bestPair_eq_specBest (ranks : Symb × Symb → Option Nat) :
    ∀ pairs : List (Symb × Symb), bestPair ranks pairs = specBest ranks pairs := by
  intro pairs
  induction pairs with
  | nil => rfl
  | cons p rest ih =>
    rw [bestPair, List.foldl_cons, specBest]
    cases hp : ranks p with
    | none =>
      simp only [hp]
      exact ih
    | some r =>
      simp only [hp]
      rw [show (rest.foldl
          (fun acc p =>
            match ranks p with
            | none => acc
            | some r =>
              match acc with
              | none => some (p, r)
              | some (_, rq) => if r < rq then some (p, r) else acc)
          (some (p, r))) =
        match specBest ranks rest with
        | none => some (p, r)
        | some (q, rq) => if rq < r then some (q, rq) else some (p, r)
        from bestPair_foldl_aux ranks rest p r]
      cases hsb : specBest ranks rest with
      | none => rfl
      | some b =>
        obtain ⟨q, rq⟩ := b
        by_cases hle : r ≤ rq
        · simp [hle, show ¬(rq < r) by omega]
        · simp [hle, show rq < r by omega]

theorem bpeLoop_eq_spec (ranks : Symb × Symb → Option Nat) :
    ∀ (fuel : Nat) (w : List Symb), w.length ≤ fuel →
      bpeLoopF ranks fuel w = bpeSpecLoopF ranks fuel w := by
  intro fuel
  induction fuel with
  | zero => intro w h; rfl
  | succ k ih =>
    intro w h
    cases hb : bestPair ranks (get_pairs w) with
    | none =>
      have h1 : bpeLoopF ranks (k + 1) w = w := by rw [bpeLoopF, hb]
      have h2 : bpeSpecLoopF ranks (k + 1) w = w := by
        rw [bpeSpecLoopF, ← bestPair_eq_specBest, hb]
      rw [h1, h2]
    | some pr =>
      obtain ⟨p, r⟩ := pr
      have hsrc : mergePassSrcF p.1 p.2 w.length w = mergePairs p.1 p.2 w :=
        mergePassSrc_eq p.1 p.2 w.length w (le_refl _)
      have h1 : bpeLoopF ranks (k + 1) w =
          if (mergePassSrcF p.1 p.2 w.length w).length = 1 then
            mergePassSrcF p.1 p.2 w.length w
          else bpeLoopF ranks k (mergePassSrcF p.1 p.2 w.length w) := by
        rw [bpeLoopF, hb]
      have h2 : bpeSpecLoopF ranks (k + 1) w =
          if (mergePairs p.1 p.2 w).length = 1 then mergePairs p.1 p.2 w
          else bpeSpecLoopF ranks k (mergePairs p.1 p.2 w) := by
        rw [bpeSpecLoopF, ← bestPair_eq_specBest, hb]
      have hlt : (mergePairs p.1 p.2 w).length < w.length := by
        apply mergePairs_length_lt
        simpa using (bestPair_mem hb).1
      rw [h1, h2, hsrc]
      split_ifs with hl
      · rfl
      · exact ih (mergePairs p.1 p.2 w) (by omega)

/-- C3: `Encoder.bpe` implements the specified greedy merge algorithm:
starting from single-character symbols it repeatedly merges every
non-overlapping occurrence (left to right, no reuse) of the adjacent pair
of lowest rank (absent pairs ranking as infinite), stopping when no
adjacent pair is ranked or one symbol remains; a single-character chunk
is returned unchanged. -/
theorem bpe_implements_greedy_merge :
    (∀ (ranks : Symb × Symb → Option Nat) (c : Nat), bpe_pure ranks [c] = some [c]) ∧
    (∀ (ranks : Symb × Symb → Option Nat) (token : List Nat),
      bpe_pure ranks token = bpeSpec ranks token) := by
  constructor
  · intro ranks c
    rfl
  · intro ranks token
    rw [bpe_pure, bpeSpec]
    split_ifs with h0 h1
    · rfl
    · rfl
    · rw [bpe_long, bpeLoop_eq_spec ranks token.length (token.map (fun c => [c])) (by simp)]
